import Mathlib

/-!
Verification of the CLIgen runtime matcher (cligen_match.c).

Shallow embedding of the matcher of the cligen repository.  C strings are
modelled as lists of characters (`Str`); NULL pointers as `Option`s;
out-parameters as explicit components of the returned values.  Allocation is
assumed to succeed, so the allocation-failure error paths of the C code do
not arise in the model.  External helpers that are not part of the two
provided source files (the delimiter and quote macros, cv_parse1,
cv_validate, co_pref, the expansion engine, the handle accessors) are
modelled from the specification; wherever a theorem does not depend on their
behaviour they are abstracted into an `ExtEnv` record and universally
quantified.
-/

abbrev Str := List Char

/-- Modelled from the spec: the delimiter character set (CLIGEN_DELIMITERS,
space and tab); the macro is defined outside the provided sources. -/
def isDelim (c : Char) : Bool := c == ' ' || c == '\t'

/-- Modelled from the spec: the quote character set (CLIGEN_QUOTES, the
double quote); the macro is defined outside the provided sources. -/
def isQuote (c : Char) : Bool := c == '"'

/-- Inner scan of next_token for an unquoted token (cligen_match.c lines
215-231): consume characters until an unescaped delimiter; a backslash
escapes the following character for the purpose of termination but is kept
verbatim in the token.  Returns (consumed characters, remaining input). -/
def bare_token : Str → Bool → Str × Str
  | [], _ => ([], [])
  | c :: cs, esc =>
    if esc then
      let p := bare_token cs false
      (c :: p.1, p.2)
    else if c == '\\' then
      let p := bare_token cs true
      (c :: p.1, p.2)
    else if isDelim c then
      ([], c :: cs)
    else
      let p := bare_token cs false
      (c :: p.1, p.2)

/-- Translation of next_token (cligen_match.c lines 183-262).  The result is
(token, rest, remaining, leading): `token` is the extracted token (`none`
models the NULL token of the empty probe), `rest` is the out-parameter
rest0 (the input after the leading delimiters are skipped, set at line 208),
`remaining` models the in/out pointer s0 (`none` when the C code sets it to
NULL at line 247), and `leading` counts the leading delimiters (trail flag).
The NULL-input error branch (line 198) is unreachable from cligen_str2cvv
and is not modelled; the malformed-quote branches at lines 235-237 and
241-243 are no-ops in the C code, exactly as translated here. -/
def next_token (s : Str) : Option Str × Str × Option Str × Nat :=
  let leading := (s.takeWhile isDelim).length
  let s1 := s.dropWhile isDelim
  match s1 with
  | [] => (none, s1, none, leading)
  | c :: cs =>
    if isQuote c then
      let tok := cs.takeWhile (fun x => !(isQuote x))
      let s3 := cs.dropWhile (fun x => !(isQuote x))
      match s3 with
      | _ :: s4 => (some tok, c :: cs, some s4, leading)
      | [] => (some (c :: tok), c :: cs, some [], leading)
    else
      let p := bare_token (c :: cs) false
      if p.1 == [] then (none, c :: cs, none, leading)
      else (some p.1, c :: cs, some p.2, leading)

/-- Loop of cligen_str2cvv (cligen_match.c lines 309-329), with explicit
fuel (the C loop terminates because each iteration strictly shortens the
remaining string; the totality lemma below shows the fuel given by
cligen_str2cvv always suffices).  `none` means the fuel ran out. -/
def str2cvv_go : Nat → Option Str → Nat → List Str → List Str → Option (List Str × List Str)
  | 0, _, _, _, _ => none
  | _ + 1, none, _, cvt, cvr => some (cvt, cvr)
  | fuel + 1, some s, i, cvt, cvr =>
    let r := next_token s
    if r.1 = none ∧ r.2.2.2 = 0 ∧ 0 < i then some (cvt, cvr)
    else str2cvv_go fuel r.2.2.1 (i + 1) (cvt ++ [(r.1).getD []]) (cvr ++ [r.2.1])

/-- Translation of cligen_str2cvv (cligen_match.c lines 285-349): split an
input line into the token vector and the rest vector, both started with the
whole input at index 0 (cvec_start).  Allocation failures are not modelled,
so the only `none` would be fuel exhaustion, which the totality lemma rules
out. -/
def cligen_str2cvv (s : Str) : Option (List Str × List Str) :=
  str2cvv_go (s.length + 2) (some s) 0 [s] [s]

/-- Translation of cligen_cvv_levels (cligen_match.c lines 362-373). -/
def cligen_cvv_levels (cvv : List Str) : Int :=
  if cvv.length = 0 then -1 else (cvv.length : Int) - 2

/-- Node kinds (cligen_gen.h, used throughout cligen_match.c). -/
inductive CoType where
  | CO_COMMAND : CoType
  | CO_VARIABLE : CoType
  | CO_REFERENCE : CoType
deriving DecidableEq, Repr

/-- Variable types relevant to the claims (cligen_cv.h).  CGV_REST is the
rest-of-line type tested by the ISREST macro. -/
inductive CvType where
  | CGV_INT32 : CvType
  | CGV_STRING : CvType
  | CGV_REST : CvType
deriving DecidableEq, Repr

/-- Typed values held by cligen variables (cg_var contents). -/
inductive CvVal where
  | vint : Int → CvVal
  | vstr : Str → CvVal
  | vnone : CvVal
deriving DecidableEq, Repr

/-- One entry of a cligen variable vector: name, type, value, const flag
(cv_name_set, cv_const_set in add_cov_to_cvec). -/
structure cg_var where
  name : Str
  vtype : CvType
  val : CvVal
  isconst : Bool
deriving DecidableEq, Repr

abbrev cvec := List cg_var

/-- A cligen grammar object (cg_obj).  Fields used by cligen_match.c:
co_type, co_command (the keyword, or the variable name), co_vtype, the
range constraint of the variable spec, co_ref (the origin back-pointer set
by expansion, NULL for plain nodes), and the child vector co_pt / co_next
whose `none` entries are the NULL terminal-sentinel slots. -/
inductive cg_obj : Type where
  | mk : CoType → Str → CvType → Option (Int × Int) → Option cg_obj →
      List (Option cg_obj) → cg_obj

def cg_obj.co_type : cg_obj → CoType
  | .mk t _ _ _ _ _ => t

def cg_obj.co_command : cg_obj → Str
  | .mk _ c _ _ _ _ => c

def cg_obj.co_vtype : cg_obj → CvType
  | .mk _ _ v _ _ _ => v

def cg_obj.co_range : cg_obj → Option (Int × Int)
  | .mk _ _ _ r _ _ => r

def cg_obj.co_ref : cg_obj → Option cg_obj
  | .mk _ _ _ _ r _ => r

def cg_obj.co_pt : cg_obj → List (Option cg_obj)
  | .mk _ _ _ _ _ p => p

/-- Replace the child vector of a node (the in-place update of co_match's
co_pt done by pt_expand_treeref). -/
def cg_obj.set_pt : cg_obj → List (Option cg_obj) → cg_obj
  | .mk t c v r f _, p => .mk t c v r f p

/-- A parse tree level: the pt_vec array with its NULL slots. -/
structure parse_tree where
  pt_vec : List (Option cg_obj)

/-- The handle state read and written by cligen_match.c: the no-match
message slot and the configuration options (modelled from the spec;
cligen_handle.c is not among the provided sources). -/
structure Handle where
  ch_nomatch : Option Str
  preference_mode : Bool
  tab_vars : Bool
  tab_steps : Bool
  delimiter : Char

/-- Translation of cligen_nomatch_set: store a diagnostic in the handle. -/
def cligen_nomatch_set (h : Handle) (msg : Option Str) : Handle :=
  { h with ch_nomatch := msg }

/-- External helpers called by cligen_match.c but implemented outside the
provided sources.  Theorems quantify over this record wherever possible;
`extDefault` below instantiates it following the specification.
cv_parse1 parses a string as a declared type (Except carries the reason on
failure); cv_validate checks the parsed value against the variable's
constraints; co_pref is the preference weight of a node given the exactness
flag; pt_expand_treeref rewrites a matched node's child vector (sub-tree
references); pt_expand_2 produces the working child vector from the
(treeref-expanded) children, the binding vector and the hide/expandvar
flags. -/
structure ExtEnv where
  cv_parse1 : CvType → Str → Except Str CvVal
  cv_validate : Option (Int × Int) → CvVal → Except Str Unit
  co_pref : cg_obj → Bool → Int
  pt_expand_treeref : cg_obj → List (Option cg_obj)
  pt_expand_2 : List (Option cg_obj) → cvec → Bool → Bool → List (Option cg_obj)

/-- Decimal digits to a natural number (helper for the modelled parser). -/
def parseNatDigits (s : Str) : Option Nat :=
  if s = [] then none
  else if s.all (fun c => c.isDigit) then
    some (s.foldl (fun a c => a * 10 + (c.toNat - 48)) 0)
  else none

/-- Modelled from the spec: parsing of a candidate string as a declared
scalar type (cv_parse1 lives in cligen_cv.c, not among the provided
sources).  An int32 is an optionally signed decimal number within the
32-bit range; string and rest-of-line values are the string itself. -/
def default_cv_parse1 (t : CvType) (s : Str) : Except Str CvVal :=
  match t with
  | .CGV_INT32 =>
    let p := match s with
      | '-' :: rest => (parseNatDigits rest).map (fun n => -(n : Int))
      | _ => (parseNatDigits s).map (fun n => (n : Int))
    match p with
    | some n =>
      if -2147483648 ≤ n ∧ n ≤ 2147483647 then .ok (.vint n)
      else .error ("number out of range".toList)
    | none => .error ("invalid number".toList)
  | .CGV_STRING => .ok (.vstr s)
  | .CGV_REST => .ok (.vstr s)

/-- Modelled from the spec: validation of a parsed value against the
variable's range constraint (cv_validate lives outside the provided
sources). -/
def default_cv_validate (r : Option (Int × Int)) (v : CvVal) : Except Str Unit :=
  match r, v with
  | some lohi, .vint n =>
    if lohi.1 ≤ n ∧ n ≤ lohi.2 then .ok () else .error ("value out of range".toList)
  | _, _ => .ok ()

/-- Modelled from the spec: the preference order keyword > typed scalar >
string > rest-of-line (co_pref lives in cligen_gen.c, not among the
provided sources); only the relative order is specified. -/
def default_co_pref (co : cg_obj) (_exact : Bool) : Int :=
  match co.co_type with
  | .CO_COMMAND => 100
  | .CO_REFERENCE => 0
  | .CO_VARIABLE =>
    match co.co_vtype with
    | .CGV_INT32 => 60
    | .CGV_STRING => 40
    | .CGV_REST => 20

/-- Modelled from the spec: for a grammar without sub-tree references and
without declared choice expansions, expansion leaves the child vector
unchanged. -/
def extDefault : ExtEnv where
  cv_parse1 := default_cv_parse1
  cv_validate := default_cv_validate
  co_pref := default_co_pref
  pt_expand_treeref := cg_obj.co_pt
  pt_expand_2 := fun pt _ _ _ => pt

/-- Translation of the ISREST macro (cligen_match.c line 69). -/
def ISREST (co : cg_obj) : Bool :=
  co.co_type == .CO_VARIABLE && co.co_vtype == .CGV_REST

/-- Translation of cvec_i_str on the token and rest vectors: `none` models
the NULL returned for an out-of-range index. -/
def cvec_i_str (cvv : List Str) (i : Nat) : Option Str :=
  cvv.get? i

/-- Translation of match_variable (cligen_match.c lines 83-109): build a
value of the declared type, parse the candidate, then validate it; the
reason of the first failure is reported.  cv_new cannot fail in the model,
so the -1 error exit does not arise. -/
def match_variable (ext : ExtEnv) (co : cg_obj) (str : Str) : Int × Option Str :=
  match ext.cv_parse1 co.co_vtype str with
  | .error reason => (0, some reason)
  | .ok v =>
    match ext.cv_validate co.co_range v with
    | .error reason => (0, some reason)
    | .ok _ => (1, none)

/-- Translation of match_object (cligen_match.c lines 123-155).  Returns
(match, exact, reason); the candidate string and the object are `Option`s
because the C code accepts NULL for both.  The reason is produced
unconditionally here; callers that pass a NULL reason pointer in C simply
discard it (see the onlyvars gating in the two walkers). -/
def match_object (ext : ExtEnv) (string : Option Str) (co : Option cg_obj) :
    Int × Bool × Option Str :=
  match co with
  | none => (0, false, none)
  | some co =>
    match co.co_type with
    | .CO_COMMAND =>
      match string with
      | none => (1, false, none)
      | some s =>
        ((if s.isPrefixOf co.co_command then 1 else 0),
         co.co_command.length == s.length, none)
    | .CO_VARIABLE =>
      match string with
      | none => (1, false, none)
      | some s =>
        if s.length = 0 then (1, false, none)
        else
          let mv := match_variable ext co s
          ((if mv.1 ≠ 0 then 1 else 0), false, mv.2)
    | .CO_REFERENCE => (0, false, none)

/-- Translation of match_perfect (cligen_match.c lines 159-165): a command
whose keyword equals the whole candidate.  The candidate is an `Option`
because the walker hands over the possibly-NULL token slot; the C code
would dereference NULL, which is unreachable from the entry points, and the
model returns false there. -/
def match_perfect (str : Option Str) (co : cg_obj) : Bool :=
  co.co_type == .CO_COMMAND && str == some co.co_command

/-- Translation of pt_onlyvars (cligen_match.c lines 380-397): true when
the level has at least one non-NULL entry and every non-NULL entry is a
variable or carries an origin reference. -/
def pt_onlyvars_go : List (Option cg_obj) → Bool → Bool
  | [], acc => acc
  | none :: rest, acc => pt_onlyvars_go rest acc
  | some co :: rest, _ =>
    if co.co_type != CoType.CO_VARIABLE && co.co_ref.isNone then false
    else pt_onlyvars_go rest true

/-- Entry wrapper of pt_onlyvars with the initial accumulator 0. -/
def pt_onlyvars (pt : parse_tree) : Bool :=
  pt_onlyvars_go pt.pt_vec false

/-- Modelled from the spec: the iskeyword macro marking keyword bindings as
constants (defined outside the provided sources). -/
def iskeyword (co : cg_obj) : Bool := co.co_type == .CO_COMMAND

/-- Translation of add_cov_to_cvec (cligen_match.c lines 407-426): append a
binding named after the node and parse the matched string into it; on parse
failure the entry is removed again and NULL is returned (`none`). -/
def add_cov_to_cvec (ext : ExtEnv) (co : cg_obj) (cmd : Str) (cvv : cvec) :
    Option cvec :=
  match ext.cv_parse1 co.co_vtype cmd with
  | .error _ => none
  | .ok v => some (cvv ++ [⟨co.co_command, co.co_vtype, v, iskeyword co⟩])

/-- The token slot handed to match_object for a child: the rest vector for
rest-of-line variables, the token vector otherwise (cligen_match.c lines
493 and 613). -/
def str_at (cvt cvr : List Str) (level : Nat) (co : cg_obj) : Option Str :=
  cvec_i_str (if ISREST co then cvr else cvt) (level + 1)

/-- State of the candidate loop of match_pattern_terminal. -/
structure TScan where
  matchv : List Nat
  reason0 : Option Str
  onlyvars : Bool
deriving Repr

/-- Translation of the candidate loop of match_pattern_terminal
(cligen_match.c lines 488-515): every matching child is appended to the
match vector; the first variable-mismatch reason is recorded when the
onlyvars heuristic is active. -/
def term_scan (ext : ExtEnv) (cvt cvr : List Str) (level : Nat) :
    List (Option cg_obj) → Nat → TScan → TScan
  | [], _, st => st
  | none :: rest, i, st => term_scan ext cvt cvr level rest (i + 1) st
  | some co :: rest, i, st =>
    let str := str_at cvt cvr level co
    let m := match_object ext str co
    let reason := if st.onlyvars then m.2.2 else none
    let st1 := if m.1 = 1 then { st with matchv := st.matchv ++ [i] } else st
    let st2 :=
      if reason.isSome then
        { st1 with
          reason0 := if st1.reason0 = none then reason else st1.reason0
          onlyvars := false }
      else st1
    term_scan ext cvt cvr level rest (i + 1) st2

/-- Result record shared by the walker procedures, bundling the return value
with the out-parameters ptp, matchv, the binding vector and the reason slot
(`r0 = none` models a NULL reason pointer, `r0 = some v` a pointer currently
holding v). -/
structure PRes where
  retval : Int
  ptp : Option (List (Option cg_obj))
  matchv : List Nat
  cvv : cvec
  r0 : Option (Option Str)

/-- Translation of match_pattern_terminal (cligen_match.c lines 455-539).
The binding vector is passed through untouched (the C function does not
receive it); co_value_set only caches a value on the original tree node and
has no bearing on any returned component, so it is not modelled. -/
def match_pattern_terminal (ext : ExtEnv) (cvt cvr : List Str)
    (pt : parse_tree) (level _levels : Nat)
    (ptp0 : Option (List (Option cg_obj))) (r0 : Option (Option Str))
    (cvv : cvec) : PRes :=
  let onlyvars := match r0 with | none => false | some _ => pt_onlyvars pt
  let rv0 : Option Str := match r0 with | none => none | some v => v
  let st := term_scan ext cvt cvr level pt.pt_vec 0 ⟨[], rv0, onlyvars⟩
  if 0 < st.matchv.length then
    { retval := (st.matchv.length : Int), ptp := some pt.pt_vec,
      matchv := st.matchv, cvv := cvv, r0 := r0.map (fun _ => none) }
  else
    { retval := 0, ptp := ptp0, matchv := st.matchv, cvv := cvv,
      r0 := r0.map (fun _ => st.reason0) }

/-- State of the candidate loop of match_pattern_node.  strLast models the
C variable str, which after the loop holds the token slot of the last
examined child (not necessarily the admitted one). -/
structure NScan where
  nmatch : Nat
  perfect : Bool
  preference : Int
  co_match : Option cg_obj
  rest_match : Option Nat
  strLast : Option Str
  reason0 : Option Str
  onlyvars : Bool

/-- Translation of the candidate loop of match_pattern_node
(cligen_match.c lines 608-651): the perfect tier discards all earlier
candidates and a later non-perfect match breaks out of the loop; the
preference tier resets the candidate count on a strictly higher weight and
skips lower weights. -/
def node_scan (ext : ExtEnv) (cvt cvr : List Str) (level : Nat) :
    List (Option cg_obj) → Nat → NScan → NScan
  | [], _, st => st
  | none :: rest, i, st => node_scan ext cvt cvr level rest (i + 1) st
  | some co :: rest, i, st =>
    let str := str_at cvt cvr level co
    let m := match_object ext str co
    let reason := if st.onlyvars then m.2.2 else none
    let st0 := { st with strLast := str }
    if m.1 = 1 then
      let st1 := if ISREST co then { st0 with rest_match := some i } else st0
      if match_perfect str co then
        let st2 :=
          if !st1.perfect then { st1 with nmatch := 0, perfect := true } else st1
        node_scan ext cvt cvr level rest (i + 1)
          { st2 with co_match := some co, nmatch := st2.nmatch + 1 }
      else
        if st1.perfect then st1
        else
          let p := ext.co_pref co m.2.1
          if p < st1.preference then node_scan ext cvt cvr level rest (i + 1) st1
          else
            let st2 :=
              if st1.preference < p then
                { st1 with preference := p, nmatch := 0 }
              else st1
            node_scan ext cvt cvr level rest (i + 1)
              { st2 with co_match := some co, nmatch := st2.nmatch + 1 }
    else
      let st1 :=
        if reason.isSome then
          { st0 with
            reason0 := if st0.reason0 = none then reason else st0.reason0
            onlyvars := false }
        else st0
      node_scan ext cvt cvr level rest (i + 1) st1

/-- Translation of match_pattern_node (cligen_match.c lines 565-734), with
explicit fuel for the level recursion (`none` = fuel ran out; match_pattern
supplies fuel equal to the number of levels, which always suffices since
every recursive call moves one level down).  After the candidate loop, a
unique survivor is processed: a matched variable is bound into the binding
vector with the last examined token slot (the C variable str), a synthetic
keyword with a variable origin binds the keyword text to the origin, the
rest-of-line shortcut returns immediately, and otherwise the walk descends
into the expanded children; on every exit path the binding added by this
frame is popped again (lines 723-728).  pt_expand_add and co_value_set only
write caches on tree nodes and have no bearing on any returned component,
so they are not modelled. -/
def match_pattern_node (ext : ExtEnv) :
    Nat → List Str → List Str → parse_tree → Nat → Nat → Bool → Bool →
    Option (List (Option cg_obj)) → List Nat → cvec → Option (Option Str) →
    Option PRes
  | 0, _, _, _, _, _, _, _, _, _, _, _ => none
  | fuel + 1, cvt, cvr, pt, level, levels, hide, expandvar, ptp0, matchv0, cvv, r0 =>
    let onlyvars := match r0 with | none => false | some _ => pt_onlyvars pt
    let rv0 : Option Str := match r0 with | none => none | some v => v
    let st := node_scan ext cvt cvr level pt.pt_vec 0
      ⟨0, false, 0, none, none, none, rv0, onlyvars⟩
    let rv1 : Option Str := if st.nmatch ≠ 0 then none else st.reason0
    if st.nmatch ≠ 1 then
      some { retval := 0, ptp := ptp0, matchv := matchv0, cvv := cvv,
             r0 := r0.map (fun _ => rv1) }
    else
      match st.co_match with
      | none =>
        some { retval := -1, ptp := ptp0, matchv := matchv0, cvv := cvv,
               r0 := r0.map (fun _ => rv1) }
      | some co_m =>
        let co_orig := co_m.co_ref.getD co_m
        let coE := co_m.set_pt (ext.pt_expand_treeref co_m)
        let addRes : Option (Bool × cvec) :=
          if coE.co_type == .CO_VARIABLE then
            (add_cov_to_cvec ext coE (st.strLast.getD []) cvv).map
              (fun c => (true, c))
          else if coE.co_type == .CO_COMMAND && co_orig.co_type == .CO_VARIABLE then
            (add_cov_to_cvec ext co_orig coE.co_command cvv).map
              (fun c => (true, c))
          else some (false, cvv)
        match addRes with
        | none =>
          some { retval := -1, ptp := ptp0, matchv := matchv0, cvv := cvv,
                 r0 := r0.map (fun _ => rv1) }
        | some (cvAdded, cvv1) =>
          if coE.co_type == .CO_VARIABLE && st.rest_match.isSome then
            some { retval := 1, ptp := some pt.pt_vec,
                   matchv := [st.rest_match.getD 0], cvv := cvv1.dropLast,
                   r0 := r0.map (fun _ => rv1) }
          else
            let ptn : parse_tree := ⟨ext.pt_expand_2 coE.co_pt cvv1 hide expandvar⟩
            let res? :=
              if level + 1 = levels then
                some (match_pattern_terminal ext cvt cvr ptn (level + 1) levels
                  ptp0 (r0.map (fun _ => rv1)) cvv1)
              else
                match_pattern_node ext fuel cvt cvr ptn (level + 1) levels hide
                  expandvar ptp0 matchv0 cvv1 (r0.map (fun _ => rv1))
            match res? with
            | none => none
            | some res =>
              some { res with cvv := if cvAdded then res.cvv.dropLast else res.cvv }

/-- Translation of match_pattern (cligen_match.c lines 758-799): dispatch on
the number of levels to the terminal or interior walker. -/
def match_pattern (ext : ExtEnv) (cvt cvr : List Str) (pt : parse_tree)
    (hide expandvar : Bool) (ptp0 : Option (List (Option cg_obj)))
    (matchv0 : List Nat) (cvv : cvec) (r0 : Option (Option Str)) :
    Option PRes :=
  let levels := cligen_cvv_levels cvt
  if levels < 0 then
    some { retval := -1, ptp := ptp0, matchv := matchv0, cvv := cvv, r0 := r0 }
  else if levels = 0 then
    some (match_pattern_terminal ext cvt cvr pt 0 0 ptp0 r0 cvv)
  else
    match_pattern_node ext levels.toNat cvt cvr pt 0 levels.toNat hide
      expandvar ptp0 matchv0 cvv r0

/-- Loop of match_multiple (cligen_match.c lines 814-826).  The C variable
preference is read before it is ever written; following the specification's
resolution of this open point, the initial weight is modelled as 0. -/
def mm_go (ext : ExtEnv) (pt : List (Option cg_obj)) :
    List Nat → Int → List Nat → List Nat
  | [], _, kept => kept
  | mv :: rest, pref, kept =>
    let p := match pt.get? mv with
      | some (some co) => ext.co_pref co true
      | _ => 0
    if p < pref then mm_go ext pt rest pref kept
    else if pref < p then mm_go ext pt rest p [mv]
    else mm_go ext pt rest pref (kept ++ [mv])

/-- Translation of match_multiple (cligen_match.c lines 801-834): keep only
the candidates of maximal preference, then truncate to the first survivor
in preference mode. -/
def match_multiple (ext : ExtEnv) (h : Handle) (pt : List (Option cg_obj))
    (matchv : List Nat) : List Nat :=
  let kept := mm_go ext pt matchv 0 []
  if h.preference_mode ∧ 1 < kept.length then kept.take 1 else kept

def unknown_msg : Str := "Unknown command".toList

def incomplete_msg : Str := "Incomplete command".toList

/-- Result of match_pattern_exact: the return value, the updated handle
(no-match slot), the binding vector and the match_obj out-parameter. -/
structure ERes where
  retval : Int
  h : Handle
  cvv : cvec
  match_obj : Option cg_obj

/-- Translation of match_pattern_exact (cligen_match.c lines 854-922).  The
expandvar parameter is accepted but, exactly as in the C code (line 875),
the walker is invoked with hide = 0 and expandvar = 1 regardless of it.
After the walk: zero candidates set the recorded reason or the generic
message, multiple candidates run the tie-breaker, and a unique candidate is
accepted iff its child array is empty or contains a NULL sentinel slot,
otherwise the handle gets the incomplete-command message.  On the paths
where the C code leaves the match_obj output uninitialised or NULL the
model returns `none`. -/
def match_pattern_exact (ext : ExtEnv) (h0 : Handle) (cvt cvr : List Str)
    (pt : parse_tree) (_expandvar : Bool) (cvv : cvec) : ERes :=
  let h := cligen_nomatch_set h0 none
  match match_pattern ext cvt cvr pt false true none [] cvv (some none) with
  | none => { retval := -1, h := h, cvv := cvv, match_obj := none }
  | some pr =>
    if pr.retval < 0 then { retval := -1, h := h, cvv := pr.cvv, match_obj := none }
    else
      let matchlen := pr.matchv.length
      let h1 :=
        if matchlen = 0 then
          cligen_nomatch_set h
            (some (match pr.r0 with | some (some rs) => rs | _ => unknown_msg))
        else h
      let matchv1 :=
        if 1 < matchlen then match_multiple ext h (pr.ptp.getD []) pr.matchv
        else pr.matchv
      if matchv1.length ≠ 1 then
        { retval := (matchv1.length : Int), h := h1, cvv := pr.cvv, match_obj := none }
      else
        match (pr.ptp.getD []).get? (matchv1.getD 0 0) with
        | some (some co) =>
          if co.co_pt.length ≠ 0 ∧ ¬ (co.co_pt.any Option.isNone) then
            { retval := 0, h := cligen_nomatch_set h1 (some incomplete_msg),
              cvv := pr.cvv, match_obj := none }
          else
            { retval := 1, h := h1, cvv := pr.cvv, match_obj := some co }
        | _ => { retval := -1, h := h1, cvv := pr.cvv, match_obj := none }

/-- State of the common-prefix loop of match_complete (cligen_match.c lines
988-1016): the first kept candidate, the running minimal match length and
the all-equal flag. -/
structure CScan where
  co1 : Option cg_obj
  minmatch : Int
  equal : Bool

/-- Length of the longest common prefix of two keyword strings (the j loop
at cligen_match.c lines 1010-1012). -/
def commonPrefixLen : Str → Str → Nat
  | c :: cs, d :: ds => if c == d then commonPrefixLen cs ds + 1 else 0
  | _, _ => 0

/-- Translation of the candidate loop of match_complete (cligen_match.c
lines 990-1016).  A NULL candidate entry makes the function return 0
(modelled by `none`); variable candidates are skipped unless the VARS tab
mode is set; the first kept candidate fixes co1 and minmatch, later ones
shrink minmatch to the common prefix and clear the equal flag. -/
def comp_scan (h : Handle) (pt1 : List (Option cg_obj)) :
    List Nat → CScan → Option CScan
  | [], st => some st
  | mv :: rest, st =>
    match pt1.get? mv with
    | some (some co) =>
      if !h.tab_vars && co.co_type != CoType.CO_COMMAND then
        comp_scan h pt1 rest st
      else
        match st.co1 with
        | none =>
          comp_scan h pt1 rest
            { st with co1 := some co, minmatch := (co.co_command.length : Int) }
        | some c1 =>
          if c1.co_command = co.co_command then comp_scan h pt1 rest st
          else
            comp_scan h pt1 rest
              { st with
                equal := false
                minmatch := min st.minmatch
                  ((commonPrefixLen c1.co_command co.co_command : Nat) : Int) }
    | _ => none

/-- Body of match_complete from the again label (cligen_match.c lines
972-1044), with explicit fuel for the step-mode loop (goto again), which
re-runs the walk on the same token vectors with the extended buffer.  The
buffer capacity bookkeeping (slenp, realloc) only grows storage and never
changes content, so the buffer is modelled as an unbounded string.  Note
that minmatch - slen is an int in C; a non-zero difference sets the append
flag and the number of appended characters is its value clamped at zero. -/
def match_complete_go (ext : ExtEnv) (h : Handle) :
    Nat → parse_tree → List Str → List Str → Str → cvec → Bool →
    Option (Int × Str)
  | 0, _, _, _, _, _, _ => none
  | fuel + 1, pt, cvt, cvr, string, cvv, app =>
    match match_pattern ext cvt cvr pt true true none [] cvv none with
    | none => none
    | some pr =>
      if pr.retval < 0 then some (-1, string)
      else if pr.retval = 0 then some (0, string)
      else
        let level := cligen_cvv_levels cvt
        if level < 0 then some (-1, string)
        else
          let ss := cvec_i_str cvt (level.toNat + 1)
          let slen : Int := ((ss.getD []).length : Int)
          match comp_scan h (pr.ptp.getD []) pr.matchv ⟨none, slen, true⟩ with
          | none => some (0, string)
          | some st =>
            match st.co1 with
            | none => some (0, string)
            | some co1 =>
              let appended :=
                (co1.co_command.drop slen.toNat).take (st.minmatch - slen).toNat
              let string2 := string ++ appended
              let app2 := app || !(st.minmatch - slen == 0)
              if st.equal then
                let string3 := string2 ++ [h.delimiter]
                if h.tab_steps then
                  match_complete_go ext h fuel pt cvt cvr string3 pr.cvv app2
                else some ((if app2 then 1 else 0), string3)
              else some ((if app2 then 1 else 0), string2)

/-- Translation of match_complete (cligen_match.c lines 936-1053): tokenise
the buffer, then run the completion body.  The step-mode loop of the C
code re-matches the stale token vectors against the grown buffer and need
not terminate, hence the explicit fuel (`none` = fuel ran out). -/
def match_complete (ext : ExtEnv) (h : Handle) (fuel : Nat) (pt : parse_tree)
    (string : Str) (cvv : cvec) : Option (Int × Str) :=
  match cligen_str2cvv string with
  | none => none
  | some tr => match_complete_go ext h fuel pt tr.1 tr.2 string cvv false

/-- A default handle: no stored message, no preference mode, plain tab
mode, space delimiter. -/
def h0 : Handle := ⟨none, false, false, false, ' '⟩

/-- Leaf keyword node without any children (legal endpoint in
match_pattern_exact because co_max is 0). -/
def fooLeaf : cg_obj := .mk .CO_COMMAND ("foo".toList) .CGV_STRING none none []

/-- Keyword node whose only child is the NULL terminal sentinel. -/
def fooTerm : cg_obj :=
  .mk .CO_COMMAND ("foo".toList) .CGV_STRING none none [none]

/-- The int32 variable v of the grammar G2 = set ttl [v:int32 range 0..255],
a legal endpoint (NULL sentinel child). -/
def vTtl : cg_obj :=
  .mk .CO_VARIABLE ("v".toList) .CGV_INT32 (some (0, 255)) none [none]

/-- The ttl keyword of G2 with the variable as its only child. -/
def ttlNode : cg_obj :=
  .mk .CO_COMMAND ("ttl".toList) .CGV_STRING none none [some vTtl]

/-- The set keyword of G2. -/
def setNode : cg_obj :=
  .mk .CO_COMMAND ("set".toList) .CGV_STRING none none [some ttlNode]

/-- The parse tree of G2 = set ttl [v:int32 range 0..255]. -/
def G2 : parse_tree := ⟨[some setNode]⟩

/-- Parse tree with the single childless keyword foo. -/
def Gleaf : parse_tree := ⟨[some fooLeaf]⟩

/-- Parse tree with the single keyword foo that is a legal terminal. -/
def Gfoo : parse_tree := ⟨[some fooTerm]⟩

/-- A string variable node (used to exercise the variable clauses of
match_object). -/
def vStr : cg_obj :=
  .mk .CO_VARIABLE ("x".toList) .CGV_STRING none none [none]

/-- The last character of a string is a delimiter (trailing-whitespace
condition of the specification). -/
def ends_delim (s : Str) : Bool :=
  match s.getLast? with
  | some c => isDelim c
  | none => false

/-- A string without quote characters and without backslashes; on such
inputs the bare-token scan is a plain takeWhile/dropWhile split. -/
def cleanStr (s : Str) : Bool :=
  s.all (fun c => !(isQuote c) && !(c == '\\'))

theorem dropWhile_head_false {α : Type} (p : α → Bool) :
    ∀ (l : List α) c cs, l.dropWhile p = c :: cs → p c = false := by
  intro l
  induction l with
  | nil => intro c cs h; simp [List.dropWhile] at h
  | cons x xs ih =>
    intro c cs h
    by_cases hx : p x = true
    · rw [List.dropWhile_cons_of_pos hx] at h
      exact ih c cs h
    · rw [List.dropWhile_cons_of_neg hx] at h
      cases h
      simpa using hx

theorem bare_token_append : ∀ (l : Str) (e : Bool),
    (bare_token l e).1 ++ (bare_token l e).2 = l := by
  intro l
  induction l with
  | nil => intro e; simp [bare_token]
  | cons c cs ih =>
    intro e
    by_cases he : e
    · simp [bare_token, he, ih]
    · by_cases hc : (c == '\\') = true
      · simp [bare_token, he, hc, ih]
      · by_cases hd : isDelim c = true
        · simp [bare_token, he, hc, hd]
        · simp [bare_token, he, hc, hd, ih]

theorem bare_token_clean : ∀ l : Str, (∀ c ∈ l, (c == '\\') = false) →
    bare_token l false =
      (l.takeWhile (fun c => !(isDelim c)), l.dropWhile (fun c => !(isDelim c))) := by
  intro l
  induction l with
  | nil => intro _; simp [bare_token]
  | cons c cs ih =>
    intro hcl
    have hc : (c == '\\') = false := hcl c (List.mem_cons_self c cs)
    by_cases hd : isDelim c = true
    · simp [bare_token, hc, hd, List.takeWhile_cons, List.dropWhile_cons]
    · have hd' : isDelim c = false := by simpa using hd
      have ihr := ih (fun x hx => hcl x (List.mem_cons_of_mem c hx))
      simp [bare_token, hc, hd', List.takeWhile_cons, List.dropWhile_cons, ihr]

theorem next_token_rest (s : Str) : (next_token s).2.1 = s.dropWhile isDelim := by
  dsimp only [next_token]
  cases h : s.dropWhile isDelim with
  | nil => rfl
  | cons c cs =>
    by_cases hq : isQuote c = true
    · simp only [hq, if_pos]
      cases h3 : cs.dropWhile (fun x => !(isQuote x)) with
      | nil => rfl
      | cons x s4 => rfl
    · simp only [hq, if_neg, Bool.false_eq_true, not_false_iff]
      by_cases hb : ((bare_token (c :: cs) false).1 == []) = true
      · simp only [hb, if_pos]
      · simp only [hb, if_neg, Bool.false_eq_true, not_false_iff]

theorem next_token_remaining_suffix (s : Str) :
    ∀ u, (next_token s).2.2.1 = some u → u <:+ s.dropWhile isDelim := by
  intro u
  dsimp only [next_token]
  cases h : s.dropWhile isDelim with
  | nil => intro hu; simp at hu
  | cons c cs =>
    by_cases hq : isQuote c = true
    · simp only [hq, if_pos]
      cases h3 : cs.dropWhile (fun x => !(isQuote x)) with
      | nil =>
        intro hu
        simp only [Option.some.injEq] at hu
        subst hu
        exact List.nil_suffix
      | cons x s4 =>
        intro hu
        simp only [Option.some.injEq] at hu
        subst hu
        have h2 : x :: s4 <:+ cs := h3 ▸ List.dropWhile_suffix _
        exact ((List.suffix_cons x s4).trans h2).trans (List.suffix_cons c cs)
    · simp only [hq, if_neg, Bool.false_eq_true, not_false_iff]
      by_cases hb : ((bare_token (c :: cs) false).1 == []) = true
      · intro hu; simp [hb] at hu
      · simp only [hb, if_neg, Bool.false_eq_true, not_false_iff]
        intro hu
        simp only [Option.some.injEq] at hu
        subst hu
        exact ⟨(bare_token (c :: cs) false).1, bare_token_append (c :: cs) false⟩


theorem next_token_remaining_length (s : Str) :
    ∀ u, (next_token s).2.2.1 = some u → u.length < s.length := by
  intro u
  have hlen : (s.dropWhile isDelim).length ≤ s.length :=
    (List.dropWhile_suffix isDelim).length_le
  dsimp only [next_token]
  cases h : s.dropWhile isDelim with
  | nil => intro hu; simp at hu
  | cons c cs =>
    rw [h] at hlen
    by_cases hq : isQuote c = true
    · simp only [hq, if_pos]
      cases h3 : cs.dropWhile (fun x => !(isQuote x)) with
      | nil =>
        intro hu
        simp only [Option.some.injEq] at hu
        subst hu
        simp only [List.length_cons] at hlen
        simp only [List.length_nil]
        omega
      | cons x s4 =>
        intro hu
        simp only [Option.some.injEq] at hu
        subst hu
        have h2 : (x :: s4).length ≤ cs.length := by
          have hsf : x :: s4 <:+ cs := h3 ▸ List.dropWhile_suffix _
          exact hsf.length_le
        simp only [List.length_cons] at h2 hlen ⊢
        omega
    · simp only [hq, if_neg, Bool.false_eq_true, not_false_iff]
      by_cases hb : ((bare_token (c :: cs) false).1 == []) = true
      · intro hu; simp [hb] at hu
      · simp only [hb, if_neg, Bool.false_eq_true, not_false_iff]
        intro hu
        simp only [Option.some.injEq] at hu
        subst hu
        have happ := bare_token_append (c :: cs) false
        have hne : (bare_token (c :: cs) false).1 ≠ [] := by
          simpa using hb
        have h1 : 1 ≤ (bare_token (c :: cs) false).1.length := by
          cases hp : (bare_token (c :: cs) false).1 with
          | nil => exact absurd hp hne
          | cons a as => simp
        have h2 : (bare_token (c :: cs) false).1.length +
            (bare_token (c :: cs) false).2.length = (c :: cs).length := by
          have := congrArg List.length happ
          simpa using this
        simp only [List.length_cons] at h2 hlen
        omega

theorem next_token_token (s : Str) :
    ∀ tok, (next_token s).1 = some tok →
      tok <+: (next_token s).2.1 ∨
        ∃ q, isQuote q = true ∧ q :: tok <+: (next_token s).2.1 := by
  intro tok
  dsimp only [next_token]
  cases h : s.dropWhile isDelim with
  | nil => intro hu; simp at hu
  | cons c cs =>
    by_cases hq : isQuote c = true
    · simp only [hq, if_pos]
      cases h3 : cs.dropWhile (fun x => !(isQuote x)) with
      | nil =>
        intro hu
        simp only [Option.some.injEq] at hu
        subst hu
        left
        have htw : cs.takeWhile (fun x => !(isQuote x)) = cs := by
          have := List.takeWhile_append_dropWhile (fun x => !(isQuote x)) cs
          rw [h3, List.append_nil] at this
          exact this
        rw [htw]
      | cons x s4 =>
        intro hu
        simp only [Option.some.injEq] at hu
        subst hu
        right
        exact ⟨c, hq, List.cons_prefix_cons.mpr ⟨rfl, List.takeWhile_prefix _⟩⟩
    · simp only [hq, if_neg, Bool.false_eq_true, not_false_iff]
      by_cases hb : ((bare_token (c :: cs) false).1 == []) = true
      · intro hu; simp [hb] at hu
      · simp only [hb, if_neg, Bool.false_eq_true, not_false_iff]
        intro hu
        simp only [Option.some.injEq] at hu
        subst hu
        left
        have hp := List.prefix_append (bare_token (c :: cs) false).1
          (bare_token (c :: cs) false).2
        rwa [bare_token_append] at hp

theorem suffix_getLast? {l2 l1 : Str} (h : l2 <:+ l1) (hne : l2 ≠ []) :
    l2.getLast? = l1.getLast? := by
  obtain ⟨t, rfl⟩ := h
  exact (List.getLast?_append_of_ne_nil t hne).symm

theorem suffix_clean {u v : Str} (h : cleanStr u = true) (hs : v <:+ u) :
    cleanStr v = true := by
  unfold cleanStr at h ⊢
  rw [List.all_eq_true] at h ⊢
  exact fun x hx => h x (hs.subset hx)

theorem str2cvv_go_total : ∀ (fuel : Nat) (s : Option Str) (i : Nat)
    (ct cr : List Str),
    (match s with | none => 1 | some u => u.length + 2) ≤ fuel →
    (str2cvv_go fuel s i ct cr).isSome = true := by
  intro fuel
  induction fuel with
  | zero =>
    intro s i ct cr hle
    cases s <;> simp at hle
  | succ fuel ih =>
    intro s i ct cr hle
    cases s with
    | none => simp [str2cvv_go]
    | some u =>
      rw [str2cvv_go]
      by_cases hbr : (next_token u).1 = none ∧ (next_token u).2.2.2 = 0 ∧ 0 < i
      · simp [hbr]
      · simp only [hbr, if_neg, not_false_iff]
        simp only at hle
        apply ih
        cases hrem : (next_token u).2.2.1 with
        | none =>
          show (1 : Nat) ≤ fuel
          omega
        | some v =>
          have := next_token_remaining_length u v hrem
          show v.length + 2 ≤ fuel
          omega

theorem str2cvv_go_extends : ∀ (fuel : Nat) (s : Option Str) (i : Nat)
    (ct cr : List Str) (out : List Str × List Str),
    str2cvv_go fuel s i ct cr = some out →
    ∃ dt dr, out.1 = ct ++ dt ∧ out.2 = cr ++ dr ∧ dt.length = dr.length := by
  intro fuel
  induction fuel with
  | zero => intro s i ct cr out h; simp [str2cvv_go] at h
  | succ fuel ih =>
    intro s i ct cr out h
    cases s with
    | none =>
      rw [str2cvv_go] at h
      simp only [Option.some.injEq] at h
      exact ⟨[], [], by simp [← h], by simp [← h], rfl⟩
    | some u =>
      rw [str2cvv_go] at h
      by_cases hbr : (next_token u).1 = none ∧ (next_token u).2.2.2 = 0 ∧ 0 < i
      · rw [if_pos hbr] at h
        simp only [Option.some.injEq] at h
        exact ⟨[], [], by simp [← h], by simp [← h], rfl⟩
      · rw [if_neg hbr] at h
        obtain ⟨dt, dr, h1, h2, h3⟩ := ih _ _ _ _ _ h
        refine ⟨((next_token u).1).getD [] :: dt, (next_token u).2.1 :: dr, ?_, ?_, ?_⟩
        · rw [h1]; simp
        · rw [h2]; simp
        · simp [h3]


theorem getLast?_mem_self {α : Type} : ∀ (l : List α) (a : α),
    l.getLast? = some a → a ∈ l := by
  intro l
  induction l with
  | nil => intro a h; simp at h
  | cons x xs ih =>
    intro a h
    cases hx : xs with
    | nil => subst hx; simp at h; simp [h]
    | cons y ys =>
      subst hx
      rw [List.getLast?_cons_cons] at h
      exact List.mem_cons_of_mem x (ih a h)

theorem forall2_get? {α : Type} {R : α → α → Prop} :
    ∀ {l1 l2 : List α}, List.Forall₂ R l1 l2 →
      ∀ i x, l1.get? i = some x → ∃ y, l2.get? i = some y ∧ R x y := by
  intro l1 l2 h
  induction h with
  | nil => intro i x hx; simp at hx
  | cons hr _ ih =>
    intro i x hx
    cases i with
    | zero =>
      simp only [List.get?] at hx
      cases hx
      exact ⟨_, rfl, hr⟩
    | succ j =>
      simp only [List.get?] at hx ⊢
      exact ih j x hx

theorem str2cvv_go_pairs (s0 : Str) : ∀ (fuel : Nat) (s : Option Str) (i : Nat)
    (ct cr : List Str) (out : List Str × List Str),
    str2cvv_go fuel s i ct cr = some out →
    (∀ u, s = some u → u <:+ s0) →
    ∃ dt dr, out.1 = ct ++ dt ∧ out.2 = cr ++ dr ∧
      List.Forall₂ (fun tok e => e <:+ s0 ∧
        (∀ c cs, e = c :: cs → isDelim c = false) ∧
        (tok <+: e ∨ ∃ q, isQuote q = true ∧ q :: tok <+: e)) dt dr := by
  intro fuel
  induction fuel with
  | zero => intro s i ct cr out h _; simp [str2cvv_go] at h
  | succ fuel ih =>
    intro s i ct cr out h hsub
    cases s with
    | none =>
      rw [str2cvv_go] at h
      simp only [Option.some.injEq] at h
      exact ⟨[], [], by simp [← h], by simp [← h], List.Forall₂.nil⟩
    | some u =>
      rw [str2cvv_go] at h
      by_cases hbr : (next_token u).1 = none ∧ (next_token u).2.2.2 = 0 ∧ 0 < i
      · rw [if_pos hbr] at h
        simp only [Option.some.injEq] at h
        exact ⟨[], [], by simp [← h], by simp [← h], List.Forall₂.nil⟩
      · rw [if_neg hbr] at h
        have hsub' : ∀ v, (next_token u).2.2.1 = some v → v <:+ s0 := by
          intro v hv
          have h1 := next_token_remaining_suffix u v hv
          exact (h1.trans (List.dropWhile_suffix isDelim)).trans (hsub u rfl)
        obtain ⟨dt, dr, h1, h2, h3⟩ := ih _ _ _ _ _ h hsub'
        refine ⟨((next_token u).1).getD [] :: dt, (next_token u).2.1 :: dr,
          by rw [h1]; simp, by rw [h2]; simp, List.Forall₂.cons ?_ h3⟩
        refine ⟨?_, ?_, ?_⟩
        · rw [next_token_rest]
          exact (List.dropWhile_suffix isDelim).trans (hsub u rfl)
        · intro c cs hcc
          rw [next_token_rest] at hcc
          exact dropWhile_head_false isDelim u c cs hcc
        · cases htok : (next_token u).1 with
          | none => left; simp [List.nil_prefix]
          | some tok =>
            have := next_token_token u tok htok
            simpa using this

theorem next_token_all_delims {u : Str} (hs1 : u.dropWhile isDelim = []) :
    next_token u = (none, [], none, (u.takeWhile isDelim).length) := by
  dsimp only [next_token]
  rw [hs1]

theorem next_token_clean_bare {u : Str} {c : Char} {cs : Str}
    (hclean : cleanStr u = true) (hs1 : u.dropWhile isDelim = c :: cs) :
    next_token u = (some ((c :: cs).takeWhile (fun x => !(isDelim x))), c :: cs,
      some ((c :: cs).dropWhile (fun x => !(isDelim x))),
      (u.takeWhile isDelim).length) := by
  have hsub : c :: cs <:+ u := hs1 ▸ List.dropWhile_suffix isDelim
  have hmem : ∀ x ∈ c :: cs, (!(isQuote x) && !(x == '\\')) = true := by
    intro x hx
    exact List.all_eq_true.mp hclean x (hsub.subset hx)
  have hq : isQuote c = false := by
    have := hmem c (List.mem_cons_self c cs)
    simp only [Bool.and_eq_true, Bool.not_eq_true'] at this
    exact this.1
  have hbs : ∀ x ∈ c :: cs, (x == '\\') = false := by
    intro x hx
    have := hmem x hx
    simp only [Bool.and_eq_true, Bool.not_eq_true'] at this
    exact this.2
  have hdc : isDelim c = false := dropWhile_head_false isDelim u c cs hs1
  have hbt := bare_token_clean (c :: cs) hbs
  have hp1 : (bare_token (c :: cs) false).1 = c :: cs.takeWhile (fun x => !(isDelim x)) := by
    rw [hbt]
    simp [List.takeWhile_cons, hdc]
  dsimp only [next_token]
  rw [hs1]
  simp only [hq, Bool.false_eq_true, if_neg, not_false_iff, hbt]
  have hcond : (((c :: cs).takeWhile (fun x => !(isDelim x)) : Str) == []) = false := by
    simp [List.takeWhile_cons, hdc]
  rw [hcond]
  simp

theorem str2cvv_go_trailing : ∀ (fuel : Nat) (u : Str) (i : Nat)
    (ct cr : List Str),
    cleanStr u = true → ends_delim u = true → u.length + 2 ≤ fuel →
    ∃ out, str2cvv_go fuel (some u) i ct cr = some out ∧
      out.1.getLast? = some ([] : Str) := by
  intro fuel
  induction fuel with
  | zero => intro u i ct cr _ _ hle; omega
  | succ fuel ih =>
    intro u i ct cr hclean hends hle
    have hune : u ≠ [] := by
      intro he
      subst he
      simp [ends_delim] at hends
    obtain ⟨d, hd1, hd2⟩ : ∃ d, u.getLast? = some d ∧ isDelim d = true := by
      unfold ends_delim at hends
      cases hgl : u.getLast? with
      | none => rw [hgl] at hends; simp at hends
      | some d => rw [hgl] at hends; exact ⟨d, rfl, hends⟩
    rw [str2cvv_go]
    cases hs1 : u.dropWhile isDelim with
    | nil =>
      have hlead : (u.takeWhile isDelim).length = u.length := by
        have happ := List.takeWhile_append_dropWhile isDelim u
        rw [hs1, List.append_nil] at happ
        rw [happ]
      have hlpos : 0 < u.length := by
        cases u with
        | nil => exact absurd rfl hune
        | cons a as => simp
      rw [next_token_all_delims hs1]
      have hcond : ¬((none : Option Str) = none ∧
          (u.takeWhile isDelim).length = 0 ∧ 0 < i) := by
        rw [hlead]
        intro hcc
        omega
      rw [if_neg hcond]
      simp only [Option.getD_none]
      cases fuel with
      | zero => omega
      | succ f =>
        rw [str2cvv_go]
        exact ⟨(ct ++ [[]], cr ++ [[]]), rfl, List.getLast?_concat ct⟩
    | cons c cs =>
      rw [next_token_clean_bare hclean hs1]
      have hcond : ¬((some ((c :: cs).takeWhile (fun x => !(isDelim x))) :
          Option Str) = none ∧ (u.takeWhile isDelim).length = 0 ∧ 0 < i) := by
        intro hcc
        exact Option.some_ne_none _ hcc.1
      rw [if_neg hcond]
      simp only [Option.getD_some]
      -- facts about the remaining string
      have hsubu : c :: cs <:+ u := hs1 ▸ List.dropWhile_suffix isDelim
      have hglcc : (c :: cs).getLast? = some d := by
        rw [suffix_getLast? hsubu (List.cons_ne_nil c cs)]
        exact hd1
      set p2 : Str := (c :: cs).dropWhile (fun x => !(isDelim x)) with hp2
      have hsub2 : p2 <:+ c :: cs := List.dropWhile_suffix _
      have hp2ne : p2 ≠ [] := by
        intro hnil
        have hall := List.dropWhile_eq_nil_iff.mp (hp2 ▸ hnil)
        have hdm : d ∈ c :: cs := getLast?_mem_self _ d hglcc
        have := hall d hdm
        simp only [Bool.not_eq_true'] at this
        rw [hd2] at this
        simp at this
      have hends2 : ends_delim p2 = true := by
        unfold ends_delim
        rw [suffix_getLast? hsub2 hp2ne, hglcc]
        exact hd2
      have hclean2 : cleanStr p2 = true :=
        suffix_clean hclean (hsub2.trans hsubu)
      have hlen2 : p2.length + 2 ≤ fuel := by
        have happ := List.takeWhile_append_dropWhile (fun x => !(isDelim x)) (c :: cs)
        have hlapp : ((c :: cs).takeWhile (fun x => !(isDelim x))).length + p2.length
            = cs.length + 1 := by
          have hl2 := congrArg List.length happ
          rw [List.length_append] at hl2
          rw [hl2]
          simp
        have htne : 0 < ((c :: cs).takeWhile (fun x => !(isDelim x))).length := by
          have hdc : isDelim c = false := dropWhile_head_false isDelim u c cs hs1
          simp [List.takeWhile_cons, hdc]
        have hsl : (c :: cs).length ≤ u.length := hsubu.length_le
        simp only [List.length_cons] at hsl
        omega
      obtain ⟨out, hout, hlast⟩ := ih p2 (i + 1)
        (ct ++ [(c :: cs).takeWhile (fun x => !(isDelim x))]) (cr ++ [c :: cs])
        hclean2 hends2 hlen2
      exact ⟨out, hout, hlast⟩

theorem str2cvv_go_first_step (fuel : Nat) (s : Str) (ct cr : List Str) :
    str2cvv_go (fuel + 1) (some s) 0 ct cr =
      str2cvv_go fuel (next_token s).2.2.1 1
        (ct ++ [((next_token s).1).getD []]) (cr ++ [(next_token s).2.1]) := by
  rw [str2cvv_go]
  have hcond : ¬((next_token s).1 = none ∧ (next_token s).2.2.2 = 0 ∧ 0 < 0) := by
    intro h
    omega
  rw [if_neg hcond]

theorem str2cvv_shape (s : Str) : ∃ ct cr, cligen_str2cvv s = some (ct, cr) ∧
    ct.get? 0 = some s ∧ cr.get? 0 = some s ∧ ct.length = cr.length ∧
    2 ≤ ct.length := by
  have hstep : cligen_str2cvv s =
      str2cvv_go (s.length + 1) (next_token s).2.2.1 1
        ([s] ++ [((next_token s).1).getD []]) ([s] ++ [(next_token s).2.1]) := by
    show str2cvv_go (s.length + 1 + 1) (some s) 0 [s] [s] = _
    exact str2cvv_go_first_step (s.length + 1) s [s] [s]
  have htot : (str2cvv_go (s.length + 1) (next_token s).2.2.1 1
      ([s] ++ [((next_token s).1).getD []]) ([s] ++ [(next_token s).2.1])).isSome
      = true := by
    apply str2cvv_go_total
    cases hrem : (next_token s).2.2.1 with
    | none => show (1 : Nat) ≤ s.length + 1; omega
    | some v =>
      have := next_token_remaining_length s v hrem
      show v.length + 2 ≤ s.length + 1
      omega
  rw [hstep]
  cases hout : str2cvv_go (s.length + 1) (next_token s).2.2.1 1
      ([s] ++ [((next_token s).1).getD []]) ([s] ++ [(next_token s).2.1]) with
  | none => rw [hout] at htot; simp at htot
  | some out =>
    obtain ⟨dt, dr, h1, h2, h3⟩ := str2cvv_go_extends _ _ _ _ _ _ hout
    refine ⟨out.1, out.2, rfl, ?_, ?_, ?_, ?_⟩
    · rw [h1]; rfl
    · rw [h2]; rfl
    · rw [h1, h2]; simp [h3]
    · rw [h1]; simp

/-- C7 (corrected): tokenisation never fails on malformed quoting; in the
model, where allocation always succeeds, cligen_str2cvv succeeds on every
input and returns token and rest vectors of equal length, at least 2 (the
asserts at cligen_match.c lines 331-332). -/
theorem C7_amended_thm : ∀ s : Str, ∃ ct cr,
    cligen_str2cvv s = some (ct, cr) ∧ ct.length = cr.length ∧ 2 ≤ ct.length := by
  intro s
  obtain ⟨ct, cr, h1, _, _, h4, h5⟩ := str2cvv_shape s
  exact ⟨ct, cr, h1, h4, h5⟩

/-- C7 counterexample: the malformed-quoted input "ab"c (closing quote not
followed by a delimiter) does not make the tokeniser fail: it emits the
tokens ab and c.  The quote-error signalling in next_token is commented out
(cligen_match.c lines 235-237, 241-243). -/
theorem C7_counterexample :
    cligen_str2cvv ("\"ab\"c".toList) =
      some ([("\"ab\"c".toList), ("ab".toList), ("c".toList)],
            [("\"ab\"c".toList), ("\"ab\"c".toList), ("c".toList)]) := by
  decide

/-- C6 counterexample: for the input "a b" the second rest entry is "b",
not " b": the leading delimiter before the token is stripped (rest0 is set
after the delimiter loop at cligen_match.c lines 202-208), contradicting
the claim that the leading delimiters are included. -/
theorem C6_counterexample :
    cligen_str2cvv ("a b".toList) =
      some ([("a b".toList), ("a".toList), ("b".toList)],
            [("a b".toList), ("a b".toList), ("b".toList)]) ∧
    ("b".toList : Str) ≠ (" b".toList : Str) := by
  constructor
  · decide
  · decide

/-- C6 (corrected): every rest entry with index at least 1 is the suffix of
the input that begins at the first character of the corresponding token
(the opening quote for quoted tokens) with the leading delimiters stripped,
not included: the entry is a suffix of the input, never starts with a
delimiter, and the token (possibly prefixed by an opening quote) begins
it. -/
theorem C6_amended_thm : ∀ (s : Str) (ct cr : List Str),
    cligen_str2cvv s = some (ct, cr) → ∀ i, 1 ≤ i → i < cr.length →
    ∃ tok e, ct.get? i = some tok ∧ cr.get? i = some e ∧ e <:+ s ∧
      (∀ c cs, e = c :: cs → isDelim c = false) ∧
      (tok <+: e ∨ ∃ q, isQuote q = true ∧ q :: tok <+: e) := by
  intro s ct cr h i hi1 hi2
  have hsub : ∀ u, (some s : Option Str) = some u → u <:+ s := by
    intro u hu
    cases hu
    exact List.suffix_refl s
  obtain ⟨dt, dr, h1, h2, h3⟩ :=
    str2cvv_go_pairs s (s.length + 2) (some s) 0 [s] [s] (ct, cr) h hsub
  simp only at h1 h2
  subst h1
  subst h2
  have hlen : dt.length = dr.length := h3.length_eq
  have hdr : i - 1 < dr.length := by
    simp only [List.length_append, List.length_singleton] at hi2
    omega
  have hdt : i - 1 < dt.length := by rw [hlen]; exact hdr
  have hget : dt.get? (i - 1) = some (dt.get ⟨i - 1, hdt⟩) := List.get?_eq_get hdt
  obtain ⟨e, he1, he2⟩ := forall2_get? h3 (i - 1) _ hget
  refine ⟨dt.get ⟨i - 1, hdt⟩, e, ?_, ?_, he2.1, he2.2.1, he2.2.2⟩
  · rw [List.get?_append_right (by simp; omega)]
    simpa using hget
  · rw [List.get?_append_right (by simp; omega)]
    simpa using he1

/-- C5 counterexample: for the empty input, which contains no token and no
final token followed by delimiters, the token vector nevertheless has an
extra empty entry (the i = 0 special case at cligen_match.c line 316), so
its length is 2 and not 1 as the claim's description implies; the claim's
levels formula applied to its predicted vector would give -1, but
cligen_cvv_levels returns 0. -/
theorem C5_counterexample :
    cligen_str2cvv ([] : Str) = some ([[], []], [[], []]) ∧
    cligen_cvv_levels [[], []] = 0 := by
  constructor
  · decide
  · decide

/-- C5 (corrected): index 0 of the token vector holds the full input and
cligen_cvv_levels returns length - 2 (with levels("foo") = 0 and
levels("foo ") = 1); the extra empty token is appended when the final token
is followed by delimiter characters, and also when the input contains no
token at all (empty or all-delimiter input). -/
theorem C5_amended_thm :
    (∀ s : Str, ∃ ct cr, cligen_str2cvv s = some (ct, cr) ∧
      ct.get? 0 = some s ∧ 2 ≤ ct.length ∧
      cligen_cvv_levels ct = (ct.length : Int) - 2) ∧
    (∀ (s : Str) (ct cr : List Str), cligen_str2cvv s = some (ct, cr) →
      cleanStr s = true → ends_delim s = true →
      ct.getLast? = some ([] : Str)) ∧
    cligen_str2cvv ([] : Str) = some ([[], []], [[], []]) ∧
    (cligen_str2cvv ("foo".toList)).map (fun out => cligen_cvv_levels out.1)
      = some 0 ∧
    (cligen_str2cvv ("foo ".toList)).map (fun out => cligen_cvv_levels out.1)
      = some 1 := by
  refine ⟨?_, ?_, by decide, by decide, by decide⟩
  · intro s
    obtain ⟨ct, cr, h1, h2, _, _, h5⟩ := str2cvv_shape s
    refine ⟨ct, cr, h1, h2, h5, ?_⟩
    unfold cligen_cvv_levels
    rw [if_neg (by omega)]
  · intro s ct cr h hclean hends
    obtain ⟨out, hout, hlast⟩ :=
      str2cvv_go_trailing (s.length + 2) s 0 [s] [s] hclean hends (by omega)
    rw [cligen_str2cvv] at h
    rw [h] at hout
    cases hout
    exact hlast

/-- C5 witness: the amended trailing-token clause applied to the concrete
input "foo ": it is clean, ends in a delimiter, and its token vector ends
with the empty token. -/
theorem C5_witness :
    cleanStr ("foo ".toList) = true ∧ ends_delim ("foo ".toList) = true ∧
    ([("foo ".toList), ("foo".toList), ([] : Str)] : List Str).getLast?
      = some ([] : Str) :=
  ⟨by decide, by decide,
    C5_amended_thm.2.1 ("foo ".toList)
      [("foo ".toList), ("foo".toList), ([] : Str)]
      [("foo ".toList), ("foo ".toList), ([] : Str)]
      (by decide) (by decide) (by decide)⟩

/-- C6 witness: the amended rest-vector clause applied to the concrete
input "a b" at index 2. -/
theorem C6_witness :
    ∃ tok e,
      ([("a b".toList), ("a".toList), ("b".toList)] : List Str).get? 2
        = some tok ∧
      ([("a b".toList), ("a b".toList), ("b".toList)] : List Str).get? 2
        = some e ∧
      e <:+ ("a b".toList) ∧
      (∀ c cs, e = c :: cs → isDelim c = false) ∧
      (tok <+: e ∨ ∃ q, isQuote q = true ∧ q :: tok <+: e) :=
  C6_amended_thm ("a b".toList)
    [("a b".toList), ("a".toList), ("b".toList)]
    [("a b".toList), ("a b".toList), ("b".toList)]
    (by decide) 2 (by decide) (by decide)

/-- C4 (corrected): full behaviour of match_object.  A NULL candidate
matches command and variable nodes vacuously; a keyword matches a non-null
candidate iff the candidate is a prefix of the keyword with exact iff the
lengths are equal; a variable's exact flag is always false and a non-null
candidate is delegated to the variable matcher only when it is non-empty,
the empty candidate matching vacuously; a reference never matches. -/
theorem C4_amended_thm : ∀ (ext : ExtEnv) (co : cg_obj),
    (co.co_type = CoType.CO_COMMAND →
      match_object ext none (some co) = (1, false, none) ∧
      ∀ s : Str, match_object ext (some s) (some co) =
        ((if s <+: co.co_command then 1 else 0),
         co.co_command.length == s.length, none)) ∧
    (co.co_type = CoType.CO_VARIABLE →
      (∀ os, (match_object ext os (some co)).2.1 = false) ∧
      match_object ext none (some co) = (1, false, none) ∧
      match_object ext (some ([] : Str)) (some co) = (1, false, none) ∧
      (∀ s : Str, s ≠ [] → (match_object ext (some s) (some co)).1 =
        (if (match_variable ext co s).1 ≠ 0 then 1 else 0))) ∧
    (co.co_type = CoType.CO_REFERENCE →
      ∀ os, (match_object ext os (some co)).1 = 0) := by
  intro ext co
  refine ⟨?_, ?_, ?_⟩
  · intro h
    constructor
    · simp [match_object, h]
    · intro s
      simp only [match_object, h]
      by_cases hp : s <+: co.co_command
      · have hb : s.isPrefixOf co.co_command = true := List.isPrefixOf_iff_prefix.mpr hp
        rw [if_pos hp]
        simp [hb]
      · have hb : s.isPrefixOf co.co_command = false := by
          rw [← Bool.not_eq_true, List.isPrefixOf_iff_prefix]
          exact hp
        rw [if_neg hp]
        simp [hb]
  · intro h
    refine ⟨?_, ?_, ?_, ?_⟩
    · intro os
      cases os with
      | none => simp [match_object, h]
      | some s =>
        by_cases hs : s.length = 0
        · simp [match_object, h, hs]
        · simp [match_object, h, hs]
    · simp [match_object, h]
    · simp [match_object, h]
    · intro s hs
      have hsl : ¬(s.length = 0) := by
        intro hc
        exact hs (List.length_eq_zero.mp hc)
      simp [match_object, h, hsl]
  · intro h
    intro os
    cases os with
    | none => simp [match_object, h]
    | some s => simp [match_object, h]

/-- C4 counterexample: for the int32 variable node and the empty candidate,
match_object answers match without consulting the variable matcher (the
strlen == 0 shortcut at cligen_match.c line 145), while the variable
matcher itself rejects the empty string, so the claim that a variable node
always delegates to the variable matcher fails at this input.  The parser
behind the variable matcher is modelled from the spec. -/
theorem C4_counterexample :
    match_object extDefault (some ([] : Str)) (some vTtl) = (1, false, none) ∧
    (match_variable extDefault vTtl ([] : Str)).1 = 0 := by
  constructor
  · decide
  · decide

/-- C4 witness: the delegation clause of the amended theorem at the int32
variable with the non-empty candidate "4". -/
theorem C4_witness :
    (match_object extDefault (some ("4".toList)) (some vTtl)).1 =
      (if (match_variable extDefault vTtl ("4".toList)).1 ≠ 0 then 1 else 0) :=
  ((C4_amended_thm extDefault vTtl).2.1 rfl).2.2.2 ("4".toList) (by decide)

/-- C10 (confirmed): for every variable node and every external parser and
validator, match_object with an empty candidate returns match = 1 and
exact = 0 without invoking the parser or validator (the result is the same
for every ExtEnv), exactly as for a NULL candidate. -/
theorem C10_thm : ∀ (ext : ExtEnv) (co : cg_obj),
    co.co_type = CoType.CO_VARIABLE →
    match_object ext (some ([] : Str)) (some co) = (1, false, none) ∧
    match_object ext none (some co) = (1, false, none) := by
  intro ext co h
  constructor
  · simp [match_object, h]
  · simp [match_object, h]

/-- C10 witness: the empty-candidate clause at the concrete int32 range
variable. -/
theorem C10_witness :
    match_object extDefault (some ([] : Str)) (some vTtl) = (1, false, none) ∧
    match_object extDefault none (some vTtl) = (1, false, none) :=
  C10_thm extDefault vTtl rfl

theorem match_perfect_elim {str : Option Str} {co : cg_obj}
    (h : match_perfect str co = true) :
    co.co_type = CoType.CO_COMMAND ∧ str = some co.co_command := by
  unfold match_perfect at h
  simp only [Bool.and_eq_true, beq_iff_eq] at h
  exact h

theorem match_perfect_match (ext : ExtEnv) {str : Option Str} {co : cg_obj}
    (h : match_perfect str co = true) :
    (match_object ext str (some co)).1 = 1 := by
  obtain ⟨h1, h2⟩ := match_perfect_elim h
  subst h2
  have hpre : co.co_command.isPrefixOf co.co_command = true :=
    List.isPrefixOf_iff_prefix.mpr (List.prefix_refl _)
  simp [match_object, h1, hpre]

theorem node_scan_perfect_inv (ext : ExtEnv) (cvt cvr : List Str) (level : Nat) :
    ∀ (l : List (Option cg_obj)) (i : Nat) (st : NScan),
    st.perfect = true →
    (∀ c, st.co_match = some c → match_perfect (str_at cvt cvr level c) c = true) →
    (node_scan ext cvt cvr level l i st).perfect = true ∧
    (∀ c, (node_scan ext cvt cvr level l i st).co_match = some c →
      match_perfect (str_at cvt cvr level c) c = true) := by
  intro l
  induction l with
  | nil => intro i st h1 h2; exact ⟨h1, h2⟩
  | cons o rest ih =>
    intro i st h1 h2
    cases o with
    | none => exact ih (i + 1) st h1 h2
    | some co =>
      rw [node_scan]
      dsimp only
      by_cases hm : (match_object ext (str_at cvt cvr level co) co).1 = 1
      · rw [if_pos hm]
        by_cases hr : ISREST co = true
        all_goals by_cases hpf : match_perfect (str_at cvt cvr level co) co = true
        all_goals simp only [hr, if_true, if_false, Bool.false_eq_true, if_pos, if_neg,
          not_false_iff, hpf]
        · -- rest, perfect
          simp only [h1, Bool.not_true, Bool.false_eq_true, if_neg, not_false_iff]
          apply ih
          · rfl
          · intro c hc
            simp only [Option.some.injEq] at hc
            subst hc
            exact hpf
        · -- rest, not perfect: st1.perfect = true → return st1
          simp only [h1, if_true]
          exact ⟨trivial, fun c hc => h2 c hc⟩
        · -- not rest, perfect
          simp only [h1, Bool.not_true, Bool.false_eq_true, if_neg, not_false_iff]
          apply ih
          · rfl
          · intro c hc
            simp only [Option.some.injEq] at hc
            subst hc
            exact hpf
        · -- not rest, not perfect
          simp only [h1, if_true]
          exact ⟨trivial, fun c hc => h2 c hc⟩
      · rw [if_neg hm]
        by_cases hrs : (if st.onlyvars then
            (match_object ext (str_at cvt cvr level co) co).2.2 else none).isSome = true
        · simp only [hrs, if_true, if_pos]
          apply ih
          · exact h1
          · exact h2
        · simp only [hrs, Bool.false_eq_true, if_neg, not_false_iff, if_false]
          apply ih
          · exact h1
          · exact h2

theorem node_scan_nmatch_bound (ext : ExtEnv) (cvt cvr : List Str) (level : Nat) :
    ∀ (l : List (Option cg_obj)) (i : Nat) (st : NScan),
    st.perfect = true →
    (node_scan ext cvt cvr level l i st).nmatch ≤ st.nmatch +
      l.countP (fun o => match o with
        | some c => match_perfect (str_at cvt cvr level c) c
        | none => false) := by
  intro l
  induction l with
  | nil => intro i st _; simp [node_scan]
  | cons o rest ih =>
    intro i st h1
    cases o with
    | none =>
      have := ih (i + 1) st h1
      simpa [List.countP_cons] using this
    | some co =>
      rw [node_scan]
      dsimp only
      by_cases hm : (match_object ext (str_at cvt cvr level co) co).1 = 1
      · rw [if_pos hm]
        by_cases hr : ISREST co = true
        all_goals by_cases hpf : match_perfect (str_at cvt cvr level co) co = true
        all_goals simp only [hr, if_true, if_false, Bool.false_eq_true, if_pos, if_neg,
          not_false_iff, hpf, h1, Bool.not_true]
        · refine le_trans (ih (i + 1) _ (by simp)) ?_
          simp only [List.countP_cons]
          simp [hpf]
          omega
        · simp [List.countP_cons, hpf]
        · refine le_trans (ih (i + 1) _ (by simp)) ?_
          simp only [List.countP_cons]
          simp [hpf]
          omega
        · simp [List.countP_cons, hpf]
      · rw [if_neg hm]
        by_cases hrs : (if st.onlyvars then
            (match_object ext (str_at cvt cvr level co) co).2.2 else none).isSome = true
        all_goals simp only [hrs, if_true, if_false, Bool.false_eq_true, if_pos, if_neg,
          not_false_iff]
        · refine le_trans (ih (i + 1) _ (by simp [h1])) ?_
          simp only [List.countP_cons]
          omega
        · refine le_trans (ih (i + 1) _ (by simp [h1])) ?_
          simp only [List.countP_cons]
          omega

theorem node_scan_finds_perfect (ext : ExtEnv) (cvt cvr : List Str) (level : Nat) :
    ∀ (l : List (Option cg_obj)) (i : Nat) (st : NScan),
    st.perfect = false →
    (∃ co, (some co) ∈ l ∧ match_perfect (str_at cvt cvr level co) co = true) →
    (node_scan ext cvt cvr level l i st).perfect = true ∧
    (∀ c, (node_scan ext cvt cvr level l i st).co_match = some c →
      match_perfect (str_at cvt cvr level c) c = true) ∧
    (node_scan ext cvt cvr level l i st).nmatch ≤
      l.countP (fun o => match o with
        | some c => match_perfect (str_at cvt cvr level c) c
        | none => false) := by
  intro l
  induction l with
  | nil =>
    intro i st _ hex
    obtain ⟨co, hmem, _⟩ := hex
    exact absurd hmem (List.not_mem_nil _)
  | cons o rest ih =>
    intro i st h1 hex
    cases o with
    | none =>
      obtain ⟨co, hmem, hco⟩ := hex
      have hmem' : (some co) ∈ rest := by
        rcases List.mem_cons.mp hmem with h | h
        · exact absurd h (by simp)
        · exact h
      have := ih (i + 1) st h1 ⟨co, hmem', hco⟩
      simpa [node_scan, List.countP_cons] using this
    | some co =>
      rw [node_scan]
      dsimp only
      by_cases hpf : match_perfect (str_at cvt cvr level co) co = true
      · -- the head itself is a perfect match
        have hm : (match_object ext (str_at cvt cvr level co) co).1 = 1 :=
          match_perfect_match ext hpf
        rw [if_pos hm]
        rw [if_pos hpf]
        by_cases hr : ISREST co = true
        all_goals simp only [hr, if_true, if_false, Bool.false_eq_true, if_pos, if_neg,
          not_false_iff, h1, Bool.not_false]
        all_goals {
          constructor
          · exact (node_scan_perfect_inv ext cvt cvr level rest (i + 1) _ (by simp)
              (by intro c hc
                  simp only [Option.some.injEq] at hc
                  subst hc
                  exact hpf)).1
          constructor
          · exact (node_scan_perfect_inv ext cvt cvr level rest (i + 1) _ (by simp)
              (by intro c hc
                  simp only [Option.some.injEq] at hc
                  subst hc
                  exact hpf)).2
          · refine le_trans (node_scan_nmatch_bound ext cvt cvr level rest (i + 1) _
              (by simp)) ?_
            simp only [List.countP_cons]
            simp [hpf]
            omega
        }
      · -- the head is not perfect; the witness is in the tail
        obtain ⟨co', hmem, hco'⟩ := hex
        have hmem' : (some co') ∈ rest := by
          rcases List.mem_cons.mp hmem with h | h
          · exfalso
            have : co' = co := by injection h
            subst this
            exact hpf hco'
          · exact h
        by_cases hm : (match_object ext (str_at cvt cvr level co) co).1 = 1
        · rw [if_pos hm]
          rw [if_neg hpf]
          by_cases hr : ISREST co = true
          all_goals simp only [hr, if_true, if_false, Bool.false_eq_true, if_pos, if_neg,
            not_false_iff, h1]
          all_goals {
            by_cases hpr : ext.co_pref co (match_object ext (str_at cvt cvr level co) co).2.1
                < st.preference
            · rw [if_pos hpr]
              refine ⟨(ih (i + 1) _ (by first | rfl | exact h1) ⟨co', hmem', hco'⟩).1,
                (ih (i + 1) _ (by first | rfl | exact h1) ⟨co', hmem', hco'⟩).2.1, ?_⟩
              refine le_trans (ih (i + 1) _ (by first | rfl | exact h1) ⟨co', hmem', hco'⟩).2.2 ?_
              simp only [List.countP_cons]
              omega
            · rw [if_neg hpr]
              by_cases hgt : st.preference < ext.co_pref co
                  (match_object ext (str_at cvt cvr level co) co).2.1
              all_goals simp only [hgt, if_true, if_false, Bool.false_eq_true, if_pos,
                if_neg, not_false_iff]
              all_goals {
                refine ⟨(ih (i + 1) _ (by first | rfl | exact h1) ⟨co', hmem', hco'⟩).1,
                  (ih (i + 1) _ (by first | rfl | exact h1) ⟨co', hmem', hco'⟩).2.1, ?_⟩
                refine le_trans (ih (i + 1) _ (by first | rfl | exact h1) ⟨co', hmem', hco'⟩).2.2 ?_
                simp only [List.countP_cons]
                omega
              }
          }
        · rw [if_neg hm]
          by_cases hrs : (if st.onlyvars then
              (match_object ext (str_at cvt cvr level co) co).2.2 else none).isSome = true
          all_goals simp only [hrs, if_true, if_false, Bool.false_eq_true, if_pos, if_neg,
            not_false_iff]
          all_goals {
            refine ⟨(ih (i + 1) _ (by first | rfl | exact h1) ⟨co', hmem', hco'⟩).1,
              (ih (i + 1) _ (by first | rfl | exact h1) ⟨co', hmem', hco'⟩).2.1, ?_⟩
            refine le_trans (ih (i + 1) _ (by first | rfl | exact h1) ⟨co', hmem', hco'⟩).2.2 ?_
            simp only [List.countP_cons]
            omega
          }

/-- C3 (confirmed): at an interior level, if some non-NULL child is a
keyword equal to its token slot (a perfect match), then after the candidate
loop of match_pattern_node the perfect flag is set, the selected co_match
is itself a perfect match - a keyword whose string equals the whole token,
so never a variable child nor a prefix-only keyword child - and the number
of admitted candidates is bounded by the number of perfectly matching
children; this holds for every preference function co_pref and every
initial reason slot. -/
theorem C3_thm : ∀ (ext : ExtEnv) (cvt cvr : List Str) (level : Nat)
    (pt : parse_tree) (rv0 : Option Str) (onlyvars : Bool),
    (∃ co, (some co) ∈ pt.pt_vec ∧
      match_perfect (str_at cvt cvr level co) co = true) →
    (node_scan ext cvt cvr level pt.pt_vec 0
      ⟨0, false, 0, none, none, none, rv0, onlyvars⟩).perfect = true ∧
    (∀ c, (node_scan ext cvt cvr level pt.pt_vec 0
        ⟨0, false, 0, none, none, none, rv0, onlyvars⟩).co_match = some c →
      c.co_type = CoType.CO_COMMAND ∧
      str_at cvt cvr level c = some c.co_command) ∧
    (node_scan ext cvt cvr level pt.pt_vec 0
        ⟨0, false, 0, none, none, none, rv0, onlyvars⟩).nmatch ≤
      pt.pt_vec.countP (fun o => match o with
        | some c => match_perfect (str_at cvt cvr level c) c
        | none => false) := by
  intro ext cvt cvr level pt rv0 onlyvars hex
  have h := node_scan_finds_perfect ext cvt cvr level pt.pt_vec 0
    ⟨0, false, 0, none, none, none, rv0, onlyvars⟩ rfl hex
  refine ⟨h.1, ?_, h.2.2⟩
  intro c hc
  exact match_perfect_elim (h.2.1 c hc)

/-- C3 witness: the perfect-tier theorem at a concrete level holding a
string variable and the keyword foo, with the token foo. -/
theorem C3_witness :
    (node_scan extDefault [("foo".toList), ("foo".toList)]
      [("foo".toList), ("foo".toList)] 0 [some vStr, some fooLeaf] 0
      ⟨0, false, 0, none, none, none, none, false⟩).perfect = true ∧
    (∀ c, (node_scan extDefault [("foo".toList), ("foo".toList)]
        [("foo".toList), ("foo".toList)] 0 [some vStr, some fooLeaf] 0
        ⟨0, false, 0, none, none, none, none, false⟩).co_match = some c →
      c.co_type = CoType.CO_COMMAND ∧
      str_at [("foo".toList), ("foo".toList)] [("foo".toList), ("foo".toList)]
        0 c = some c.co_command) ∧
    (node_scan extDefault [("foo".toList), ("foo".toList)]
        [("foo".toList), ("foo".toList)] 0 [some vStr, some fooLeaf] 0
        ⟨0, false, 0, none, none, none, none, false⟩).nmatch ≤
      ([some vStr, some fooLeaf] : List (Option cg_obj)).countP
        (fun o => match o with
          | some c => match_perfect (str_at [("foo".toList), ("foo".toList)]
              [("foo".toList), ("foo".toList)] 0 c) c
          | none => false) :=
  C3_thm extDefault [("foo".toList), ("foo".toList)]
    [("foo".toList), ("foo".toList)] 0 ⟨[some vStr, some fooLeaf]⟩ none false
    ⟨fooLeaf, List.mem_cons_of_mem _ (List.mem_cons_self _ _), by decide⟩

theorem add_cov_shape (ext : ExtEnv) (co : cg_obj) (cmd : Str) (cvv : cvec) :
    ∀ c, add_cov_to_cvec ext co cmd cvv = some c → ∃ x, c = cvv ++ [x] := by
  intro c h
  unfold add_cov_to_cvec at h
  cases hp : ext.cv_parse1 co.co_vtype cmd with
  | error e => rw [hp] at h; simp at h
  | ok v =>
    rw [hp] at h
    simp only [Option.some.injEq] at h
    exact ⟨_, h.symm⟩

theorem terminal_cvv (ext : ExtEnv) (cvt cvr : List Str) (pt : parse_tree)
    (level levels : Nat) (ptp0 : Option (List (Option cg_obj)))
    (r0 : Option (Option Str)) (cvv : cvec) :
    (match_pattern_terminal ext cvt cvr pt level levels ptp0 r0 cvv).cvv = cvv := by
  unfold match_pattern_terminal
  dsimp only
  split
  · rfl
  · rfl

theorem node_cvv : ∀ (fuel : Nat) (ext : ExtEnv) (cvt cvr : List Str)
    (pt : parse_tree) (level levels : Nat) (hide ev : Bool)
    (ptp0 : Option (List (Option cg_obj))) (mv0 : List Nat) (cvv : cvec)
    (r0 : Option (Option Str)) (res : PRes),
    match_pattern_node ext fuel cvt cvr pt level levels hide ev ptp0 mv0 cvv r0
      = some res → res.cvv = cvv := by
  intro fuel
  induction fuel with
  | zero =>
    intro ext cvt cvr pt level levels hide ev ptp0 mv0 cvv r0 res h
    simp [match_pattern_node] at h
  | succ fuel ih =>
    intro ext cvt cvr pt level levels hide ev ptp0 mv0 cvv r0 res h
    rw [match_pattern_node.eq_def] at h
    dsimp only at h
    split at h
    · simp only [Option.some.injEq] at h
      rw [← h]
    · split at h
      · simp only [Option.some.injEq] at h
        rw [← h]
      · rename_i co_m hco
        split at h
        · simp only [Option.some.injEq] at h
          rw [← h]
        · rename_i cvAdded cvv1 hpair
          have hshape : (cvAdded = true ∧ ∃ x, cvv1 = cvv ++ [x]) ∨
              (cvAdded = false ∧ cvv1 = cvv ∧
                ((co_m.set_pt (ext.pt_expand_treeref co_m)).co_type ==
                  CoType.CO_VARIABLE) = false) := by
            split at hpair
            · rw [Option.map_eq_some'] at hpair
              obtain ⟨c, hc, hfc⟩ := hpair
              obtain ⟨x, hx⟩ := add_cov_shape _ _ _ _ _ hc
              cases hfc
              exact Or.inl ⟨rfl, ⟨x, hx⟩⟩
            · rename_i hnvar
              have hnvar' : ((co_m.set_pt (ext.pt_expand_treeref co_m)).co_type ==
                  CoType.CO_VARIABLE) = false := by
                rw [Bool.eq_false_iff]
                intro hc
                exact hnvar hc
              split at hpair
              · rw [Option.map_eq_some'] at hpair
                obtain ⟨c, hc, hfc⟩ := hpair
                obtain ⟨x, hx⟩ := add_cov_shape _ _ _ _ _ hc
                cases hfc
                exact Or.inl ⟨rfl, ⟨x, hx⟩⟩
              · simp only [Option.some.injEq] at hpair
                cases hpair
                exact Or.inr ⟨rfl, rfl, hnvar'⟩
          split at h
          · -- rest-of-line shortcut: the pushed binding is popped
            rename_i hcond
            simp only [Option.some.injEq] at h
            rw [← h]
            simp only
            rcases hshape with ⟨_, x, hx⟩ | ⟨_, _, hnv⟩
            · rw [hx, List.dropLast_concat]
            · rw [Bool.and_eq_true] at hcond
              rw [hnv] at hcond
              exact absurd hcond.1 (by simp)
          · by_cases hl : level + 1 = levels
            · rw [if_pos hl] at h
              dsimp only at h
              simp only [Option.some.injEq] at h
              rw [← h]
              simp only
              rcases hshape with ⟨hca, x, hx⟩ | ⟨hca, hx, _⟩
              · rw [hca, if_pos rfl, terminal_cvv, hx, List.dropLast_concat]
              · rw [hca]
                simp only [Bool.false_eq_true, if_neg, not_false_iff]
                rw [terminal_cvv, hx]
            · rw [if_neg hl] at h
              split at h
              · simp at h
              · rename_i res0 hres0
                simp only [Option.some.injEq] at h
                have hr0 := ih ext cvt cvr _ _ _ _ _ _ _ _ _ _ hres0
                rw [← h]
                simp only
                rcases hshape with ⟨hca, x, hx⟩ | ⟨hca, hx, _⟩
                · rw [hca, if_pos rfl, hr0, hx, List.dropLast_concat]
                · rw [hca]
                  simp only [Bool.false_eq_true, if_neg, not_false_iff]
                  rw [hr0, hx]

theorem match_pattern_cvv (ext : ExtEnv) (cvt cvr : List Str) (pt : parse_tree)
    (hide ev : Bool) (ptp0 : Option (List (Option cg_obj))) (mv0 : List Nat)
    (cvv : cvec) (r0 : Option (Option Str)) :
    ∀ res, match_pattern ext cvt cvr pt hide ev ptp0 mv0 cvv r0 = some res →
    res.cvv = cvv := by
  intro res h
  unfold match_pattern at h
  dsimp only at h
  split at h
  · simp only [Option.some.injEq] at h
    rw [← h]
  · split at h
    · simp only [Option.some.injEq] at h
      rw [← h]
      exact terminal_cvv ext cvt cvr pt 0 0 ptp0 r0 cvv
    · exact node_cvv _ _ _ _ _ _ _ _ _ _ _ _ _ _ h

/-- C2 (corrected): variable bindings do not survive into the caller's
binding vector: every binding pushed by the walker is popped again before
return (cligen_match.c lines 723-728), and terminal-level variable matches
never push one (match_pattern_terminal receives no binding vector), so
match_pattern_exact always returns the binding vector it was given. -/
theorem C2_amended_thm : ∀ (ext : ExtEnv) (h : Handle) (cvt cvr : List Str)
    (pt : parse_tree) (ev : Bool) (cvv : cvec),
    (match_pattern_exact ext h cvt cvr pt ev cvv).cvv = cvv := by
  intro ext h cvt cvr pt ev cvv
  unfold match_pattern_exact
  dsimp only
  cases hmp : match_pattern ext cvt cvr pt false true none [] cvv (some none) with
  | none => rfl
  | some pr =>
    have hpr : pr.cvv = cvv := match_pattern_cvv _ _ _ _ _ _ _ _ _ _ _ hmp
    dsimp only
    repeat' split
    all_goals exact hpr

/-- C2 counterexample: for the grammar G2 = set ttl [v:int32 range 0..255]
and the input "set ttl 42", match_pattern_exact returns 1 (unique) but the
caller's binding vector comes back empty: no binding named v with value 42
is present, contradicting the claim that bindings survive on the success
path.  The int32 parser and range validator are modelled from the spec. -/
theorem C2_counterexample :
    (match_pattern_exact extDefault h0
      [("set ttl 42".toList), ("set".toList), ("ttl".toList), ("42".toList)]
      [("set ttl 42".toList), ("set ttl 42".toList), ("ttl 42".toList),
        ("42".toList)]
      G2 true []).retval = 1 ∧
    (match_pattern_exact extDefault h0
      [("set ttl 42".toList), ("set".toList), ("ttl".toList), ("42".toList)]
      [("set ttl 42".toList), ("set ttl 42".toList), ("ttl 42".toList),
        ("42".toList)]
      G2 true []).cvv = [] ∧
    cligen_str2cvv ("set ttl 42".toList) =
      some ([("set ttl 42".toList), ("set".toList), ("ttl".toList),
               ("42".toList)],
            [("set ttl 42".toList), ("set ttl 42".toList), ("ttl 42".toList),
               ("42".toList)]) := by
  refine ⟨by decide, by decide, by decide⟩

theorem exact_unique_char (ext : ExtEnv) (h : Handle) (cvt cvr : List Str)
    (pt : parse_tree) (ev : Bool) (cvv : cvec) (pr : PRes) (i : Nat)
    (co : cg_obj)
    (hmp : match_pattern ext cvt cvr pt false true none [] cvv (some none)
      = some pr)
    (hret : 0 ≤ pr.retval)
    (hmv : pr.matchv = [i])
    (hco : (pr.ptp.getD []).get? i = some (some co)) :
    match_pattern_exact ext h cvt cvr pt ev cvv =
      if co.co_pt.length ≠ 0 ∧ ¬ (co.co_pt.any Option.isNone = true) then
        { retval := 0,
          h := cligen_nomatch_set (cligen_nomatch_set h none)
            (some incomplete_msg),
          cvv := pr.cvv, match_obj := none }
      else
        { retval := 1, h := cligen_nomatch_set h none, cvv := pr.cvv,
          match_obj := some co } := by
  unfold match_pattern_exact
  rw [hmp]
  dsimp only
  rw [if_neg (by omega)]
  rw [hmv]
  simp only [List.length_cons, List.length_nil, Nat.zero_add]
  rw [if_neg (by norm_num)]
  rw [if_neg (by norm_num)]
  rw [if_neg (by norm_num)]
  rw [show (List.getD [i] 0 0) = i from rfl]
  rw [hco]

/-- C1 counterexample: the grammar consisting of the single keyword foo
with an empty child array, and the input "foo": the unique candidate's
children do not contain the NULL terminal sentinel (the array is empty),
yet match_pattern_exact returns 1 and leaves the no-match slot clear (the
co_max != 0 guard at cligen_match.c line 911), contradicting the claim
that 1 is returned only when the children contain the sentinel. -/
theorem C1_counterexample :
    (match_pattern_exact extDefault h0 [("foo".toList), ("foo".toList)]
      [("foo".toList), ("foo".toList)] Gleaf true []).retval = 1 ∧
    (match_pattern_exact extDefault h0 [("foo".toList), ("foo".toList)]
      [("foo".toList), ("foo".toList)] Gleaf true []).h.ch_nomatch = none ∧
    fooLeaf.co_pt = [] := by
  refine ⟨by decide, by decide, rfl⟩

/-- C1 (corrected): when the walk leaves exactly one candidate co,
match_pattern_exact returns 1 iff co's child array is empty or contains a
NULL sentinel slot, and it returns 0 with the no-match message Incomplete
command iff the child array is non-empty and holds no NULL slot. -/
theorem C1_amended_thm (ext : ExtEnv) (h : Handle) (cvt cvr : List Str)
    (pt : parse_tree) (ev : Bool) (cvv : cvec) (pr : PRes) (i : Nat)
    (co : cg_obj)
    (hmp : match_pattern ext cvt cvr pt false true none [] cvv (some none)
      = some pr)
    (hret : 0 ≤ pr.retval)
    (hmv : pr.matchv = [i])
    (hco : (pr.ptp.getD []).get? i = some (some co)) :
    ((match_pattern_exact ext h cvt cvr pt ev cvv).retval = 1 ↔
      (co.co_pt = [] ∨ co.co_pt.any Option.isNone = true)) ∧
    ((match_pattern_exact ext h cvt cvr pt ev cvv).retval = 0 ∧
        (match_pattern_exact ext h cvt cvr pt ev cvv).h.ch_nomatch
          = some incomplete_msg ↔
      (co.co_pt ≠ [] ∧ co.co_pt.any Option.isNone = false)) := by
  have hchar := exact_unique_char ext h cvt cvr pt ev cvv pr i co hmp hret hmv hco
  by_cases hc : co.co_pt.length ≠ 0 ∧ ¬ (co.co_pt.any Option.isNone = true)
  · rw [if_pos hc] at hchar
    rw [hchar]
    constructor
    · simp only
      constructor
      · intro h01; exact absurd h01 (by norm_num)
      · intro hor
        exfalso
        rcases hor with hnil | hany
        · exact hc.1 (by rw [hnil]; rfl)
        · exact hc.2 hany
    · simp only [cligen_nomatch_set]
      constructor
      · intro _
        refine ⟨?_, ?_⟩
        · intro hnil
          exact hc.1 (by rw [hnil]; rfl)
        · rw [Bool.eq_false_iff]
          exact hc.2
      · intro _
        constructor <;> first | rfl | trivial
  · rw [if_neg hc] at hchar
    rw [hchar]
    constructor
    · simp only
      constructor
      · intro _
        rw [not_and_or] at hc
        rcases hc with hlen | hany
        · left
          rw [not_not] at hlen
          exact List.length_eq_zero.mp hlen
        · right
          rw [not_not] at hany
          exact hany
      · intro _
        first | rfl | trivial
    · simp only [cligen_nomatch_set]
      constructor
      · intro hcc
        exact absurd hcc.1 (by norm_num)
      · intro hcc
        exfalso
        rw [not_and_or] at hc
        rcases hc with hlen | hany
        · rw [not_not, List.length_eq_zero] at hlen
          exact hcc.1 hlen
        · rw [not_not] at hany
          rw [hcc.2] at hany
          simp at hany

/-- C9 (confirmed): a unique candidate with an empty child array (co_max
= 0) is accepted: match_pattern_exact returns 1 with the node and a clear
no-match slot; and whenever the Incomplete-command message is produced the
unique candidate has a non-empty child array with no NULL sentinel. -/
theorem C9_thm (ext : ExtEnv) (h : Handle) (cvt cvr : List Str)
    (pt : parse_tree) (ev : Bool) (cvv : cvec) (pr : PRes) (i : Nat)
    (co : cg_obj)
    (hmp : match_pattern ext cvt cvr pt false true none [] cvv (some none)
      = some pr)
    (hret : 0 ≤ pr.retval)
    (hmv : pr.matchv = [i])
    (hco : (pr.ptp.getD []).get? i = some (some co)) :
    (co.co_pt = [] →
      (match_pattern_exact ext h cvt cvr pt ev cvv).retval = 1 ∧
      (match_pattern_exact ext h cvt cvr pt ev cvv).match_obj = some co ∧
      (match_pattern_exact ext h cvt cvr pt ev cvv).h.ch_nomatch = none) ∧
    ((match_pattern_exact ext h cvt cvr pt ev cvv).h.ch_nomatch
        = some incomplete_msg →
      co.co_pt ≠ [] ∧ co.co_pt.any Option.isNone = false) := by
  have hchar := exact_unique_char ext h cvt cvr pt ev cvv pr i co hmp hret hmv hco
  constructor
  · intro hnil
    have hc : ¬(co.co_pt.length ≠ 0 ∧ ¬ (co.co_pt.any Option.isNone = true)) := by
      intro hcc
      exact hcc.1 (by rw [hnil]; rfl)
    rw [if_neg hc] at hchar
    rw [hchar]
    exact ⟨rfl, rfl, rfl⟩
  · intro hmsg
    by_cases hc : co.co_pt.length ≠ 0 ∧ ¬ (co.co_pt.any Option.isNone = true)
    · refine ⟨?_, ?_⟩
      · intro hnil
        exact hc.1 (by rw [hnil]; rfl)
      · rw [Bool.eq_false_iff]
        exact hc.2
    · rw [if_neg hc] at hchar
      rw [hchar] at hmsg
      simp only [cligen_nomatch_set] at hmsg
      exact absurd hmsg (by simp [incomplete_msg])

/-- C1 witness: the incomplete-command clause at the grammar G2 with input
"set": the unique candidate set has a non-empty child array without a NULL
slot, so the amended theorem yields retval 0 with the Incomplete command
message. -/
theorem C1_witness :
    (match_pattern_exact extDefault h0 [("set".toList), ("set".toList)]
      [("set".toList), ("set".toList)] G2 true []).retval = 0 ∧
    (match_pattern_exact extDefault h0 [("set".toList), ("set".toList)]
      [("set".toList), ("set".toList)] G2 true []).h.ch_nomatch
      = some incomplete_msg := by
  have hmp : match_pattern extDefault [("set".toList), ("set".toList)]
      [("set".toList), ("set".toList)] G2 false true none [] [] (some none)
      = some ⟨1, some [some setNode], [0], [], some none⟩ := rfl
  have hthm := C1_amended_thm extDefault h0 [("set".toList), ("set".toList)]
    [("set".toList), ("set".toList)] G2 true []
    ⟨1, some [some setNode], [0], [], some none⟩ 0 setNode
    hmp (by decide) rfl rfl
  refine hthm.2.mpr ⟨?_, rfl⟩
  intro hh
  simp [setNode, cg_obj.co_pt] at hh

/-- C9 witness: the empty-children clause at the grammar with the single
childless keyword foo and input "foo". -/
theorem C9_witness :
    (match_pattern_exact extDefault h0 [("foo".toList), ("foo".toList)]
      [("foo".toList), ("foo".toList)] Gleaf true []).retval = 1 ∧
    (match_pattern_exact extDefault h0 [("foo".toList), ("foo".toList)]
      [("foo".toList), ("foo".toList)] Gleaf true []).match_obj
      = some fooLeaf ∧
    (match_pattern_exact extDefault h0 [("foo".toList), ("foo".toList)]
      [("foo".toList), ("foo".toList)] Gleaf true []).h.ch_nomatch = none := by
  have hmp : match_pattern extDefault [("foo".toList), ("foo".toList)]
      [("foo".toList), ("foo".toList)] Gleaf false true none [] [] (some none)
      = some ⟨1, some [some fooLeaf], [0], [], some none⟩ := rfl
  have hthm := C9_thm extDefault h0 [("foo".toList), ("foo".toList)]
    [("foo".toList), ("foo".toList)] Gleaf true []
    ⟨1, some [some fooLeaf], [0], [], some none⟩ 0 fooLeaf
    hmp (by decide) rfl rfl
  exact hthm.1 rfl

theorem complete_go_prefix : ∀ (fuel : Nat) (ext : ExtEnv) (h : Handle)
    (pt : parse_tree) (cvt cvr : List Str) (string : Str) (cvv : cvec)
    (app : Bool) (r : Int) (b : Str),
    match_complete_go ext h fuel pt cvt cvr string cvv app = some (r, b) →
    string <+: b := by
  intro fuel
  induction fuel with
  | zero =>
    intro ext h pt cvt cvr string cvv app r b hres
    simp [match_complete_go] at hres
  | succ fuel ih =>
    intro ext h pt cvt cvr string cvv app r b hres
    rw [match_complete_go.eq_def] at hres
    dsimp only at hres
    split at hres
    · simp at hres
    · split at hres
      · simp only [Option.some.injEq, Prod.mk.injEq] at hres
        rw [← hres.2]
      · split at hres
        · simp only [Option.some.injEq, Prod.mk.injEq] at hres
          rw [← hres.2]
        · split at hres
          · simp only [Option.some.injEq, Prod.mk.injEq] at hres
            rw [← hres.2]
          · split at hres
            · simp only [Option.some.injEq, Prod.mk.injEq] at hres
              rw [← hres.2]
            · split at hres
              · simp only [Option.some.injEq, Prod.mk.injEq] at hres
                rw [← hres.2]
              · split at hres
                · split at hres
                  · -- step mode: recurse on the extended buffer
                    have hpre := ih _ _ _ _ _ _ _ _ _ _ hres
                    exact ((List.prefix_append string _).trans
                      (List.prefix_append _ _)).trans hpre
                  · simp only [Option.some.injEq, Prod.mk.injEq] at hres
                    rw [← hres.2]
                    exact (List.prefix_append string _).trans
                      (List.prefix_append _ _)
                · simp only [Option.some.injEq, Prod.mk.injEq] at hres
                  rw [← hres.2]
                  exact List.prefix_append string _

/-- C8 counterexample: for the grammar with the single terminal keyword foo
and the buffer "foo", match_complete returns 0 although it has changed the
buffer: the single candidate equals the token, so only the delimiter is
appended (cligen_match.c lines 1031-1033) and the append flag stays 0,
contradicting the claim that a 0 return leaves the buffer unchanged. -/
theorem C8_counterexample :
    match_complete extDefault h0 1 Gfoo ("foo".toList) []
      = some (0, ("foo ".toList)) ∧
    ("foo ".toList : Str) ≠ ("foo".toList : Str) := by
  refine ⟨by decide, by decide⟩

/-- C8 (corrected): match_complete only appends: on every outcome the old
buffer content is a prefix of the new one; but the return value 0 does not
imply the buffer is unchanged, since a delimiter append or step-mode
completions can extend the buffer on a 0 return. -/
theorem C8_amended_thm : ∀ (ext : ExtEnv) (h : Handle) (fuel : Nat)
    (pt : parse_tree) (s : Str) (cvv : cvec) (r : Int) (b : Str),
    match_complete ext h fuel pt s cvv = some (r, b) → s <+: b := by
  intro ext h fuel pt s cvv r b hres
  unfold match_complete at hres
  split at hres
  · simp at hres
  · exact complete_go_prefix _ _ _ _ _ _ _ _ _ _ _ hres

/-- C8 witness: the amended theorem at the concrete completion of "fo" to
"foo " under the foo grammar. -/
theorem C8_witness : ("fo".toList : Str) <+: ("foo ".toList : Str) :=
  C8_amended_thm extDefault h0 1 Gfoo ("fo".toList) [] 1 ("foo ".toList)
    (by decide)
